import Mathlib

/-!
Shallow embedding of the book-recommendation system:
`Graph_ADT.py` (unweighted graph), `recommendation.py` (weighted graph),
`predictions.py` (rating predictors) and `cluster_weight.py` (clustering).

Python `dict`s are modelled as association lists in insertion order
(lookup returns the first matching key, assignment updates the value in
place, new keys are appended); Python `set` insertion is modelled the
same way (no-op when the element is present, append otherwise).
Numbers are modelled as exact rationals.  Operations that can raise
(`ValueError`, `KeyError`, `ZeroDivisionError`, `AttributeError` on
`None`) return `Option`, with `none` for any raised exception.
-/

set_option allowUnsafeReducibility true in
attribute [semireducible] Rat.inv Rat.mul Rat.add Rat.sub Rat.div Rat.neg

namespace BookRec

/-- Vertex items (user ids / book titles) are opaque keys; we model them as
naturals. -/
abbrev Item := Nat

/-- Python's built-in `round`: round half to even (banker's rounding),
on exact rationals.  `Int.fdiv q.num q.den` is the floor of `q`. -/
def pyRound (q : ℚ) : ℤ :=
  let f : ℤ := Int.fdiv q.num q.den
  let r : ℚ := q - (f : ℚ)
  if r < 1/2 then f
  else if 1/2 < r then f + 1
  else if f % 2 = 0 then f else f + 1

/-- Stable insertion (descending): keep `y` ahead of `x` whenever `x ≤ y`,
so an element inserted later lands after earlier equal elements. -/
def insertDescQ (x : ℚ) : List ℚ → List ℚ
  | [] => [x]
  | y :: ys => if x ≤ y then y :: insertDescQ x ys else x :: y :: ys

/-- Python `list.sort(reverse=True)`: a stable descending sort.  A stable
sort's output is uniquely determined by the comparator, so this stable
insertion sort agrees with CPython's timsort observationally. -/
def pySortDesc (l : List ℚ) : List ℚ := l.foldl (fun acc x => insertDescQ x acc) []

/-! ## Unweighted graph (`Graph_ADT.py`) -/

/-- Model of `Graph._vertices`: a dict from item to `_Vertex(item, kind, neighbours)`.
The neighbour set of `_Vertex` holds vertex references; within one graph a
vertex is identified by its item, so we store neighbour items. -/
structure UGraph where
  verts : List (Item × String × List Item)
deriving DecidableEq

/-- The empty graph (`Graph.__init__`). -/
def UGraph.empty : UGraph := ⟨[]⟩

/-- First vertex entry with the given item (Python dict lookup). -/
def lookupVertU (g : UGraph) (i : Item) : Option (String × List Item) :=
  (g.verts.find? (fun e => e.1 = i)).map (fun e => e.2)

/-- The graph's vertex keys (`self._vertices` keys, insertion order). -/
def keysU (g : UGraph) : List Item := g.verts.map (fun e => e.1)

/-- Neighbour items of `i` (empty when `i` is absent; callers guard). -/
def adjOfU (g : UGraph) (i : Item) : List Item :=
  ((lookupVertU g i).map (fun e => e.2)).getD []

/-- Model of `Graph.add_vertex(item, kind)`: no-op if the key exists. -/
def addVertexU (g : UGraph) (i : Item) (k : String) : UGraph :=
  if i ∈ keysU g then g else ⟨g.verts ++ [(i, k, [])]⟩

/-- Python `set.add`: no-op when present, else append. -/
def setInsert (l : List Item) (x : Item) : List Item :=
  if x ∈ l then l else l ++ [x]

/-- Replace the adjacency of the vertex keyed `i` by `f` of it. -/
def updateAdjU (g : UGraph) (i : Item) (f : List Item → List Item) : UGraph :=
  ⟨g.verts.map (fun e => if e.1 = i then (e.1, e.2.1, f e.2.2) else e)⟩

/-- Model of `Graph.add_edge(item1, item2)` as a state transformer: the returned
graph is the state after the call, the `Option Unit` is `none` when the
`ValueError` is raised (in which case nothing was mutated, as in the
source the `raise` is the only statement of the `else` branch). -/
def runAddEdgeU (g : UGraph) (i1 i2 : Item) : UGraph × Option Unit :=
  if i1 ∈ keysU g ∧ i2 ∈ keysU g then
    (updateAdjU (updateAdjU g i1 (fun a => setInsert a i2)) i2 (fun a => setInsert a i1),
      some ())
  else (g, none)

/-- Model of `Graph.add_edge` as a fallible function on graph values. -/
def addEdgeU? (g : UGraph) (i1 i2 : Item) : Option UGraph :=
  (runAddEdgeU g i1 i2).2.map (fun _ => (runAddEdgeU g i1 i2).1)

/-- Model of `Graph.adjacent(item1, item2)`: `False` when either item is absent,
otherwise whether some neighbour of `item1` has item `item2`. -/
def adjacentU (g : UGraph) (i1 i2 : Item) : Bool :=
  if i1 ∈ keysU g ∧ i2 ∈ keysU g then decide (i2 ∈ adjOfU g i1) else false

/-- Model of `Graph.get_neighbours(item)`: the neighbour items, `ValueError` when
absent. -/
def getNeighboursU? (g : UGraph) (i : Item) : Option (List Item) :=
  (lookupVertU g i).map (fun e => e.2)

/-- Model of `Graph.get_all_vertices(kind='')`: all keys, or the keys of the given
kind when a non-empty kind string is supplied. -/
def getAllVerticesU (g : UGraph) (kind : String) : List Item :=
  if kind ≠ "" then (g.verts.filter (fun e => e.2.1 = kind)).map (fun e => e.1)
  else keysU g

/-- Model of `_Vertex.similarity_score`: 0 when either degree is 0, else
`|N₁ ∩ N₂| / |N₁ ∪ N₂]`. -/
def jaccard (a1 a2 : List Item) : ℚ :=
  if a1 = [] ∨ a2 = [] then 0
  else ((a1.toFinset ∩ a2.toFinset).card : ℚ) / ((a1.toFinset ∪ a2.toFinset).card : ℚ)

/-- Model of `Graph.get_similarity_score(item1, item2)`: `ValueError` when either is
absent. -/
def getSimilarityScoreU? (g : UGraph) (i1 i2 : Item) : Option ℚ :=
  if i1 ∈ keysU g ∧ i2 ∈ keysU g then some (jaccard (adjOfU g i1) (adjOfU g i2))
  else none

/-- Model of `Graph.recommend_books(book, limit)`.  For every other book vertex a
score is collected; the scores are sorted descending (with repetitions);
then for each score entry every other book vertex with that score is
appended; finally the list is truncated to `limit`.  The whole call raises
(`ValueError` from `get_similarity_score`) exactly when `book` is absent
and at least one other book vertex exists. -/
def recommendBooksU? (g : UGraph) (book : Item) (limit : ℕ) : Option (List Item) :=
  let others := (getAllVerticesU g "book").filter (fun v => v ≠ book)
  if others ≠ [] ∧ book ∉ keysU g then none
  else
    let score := fun v => jaccard (adjOfU g book) (adjOfU g v)
    let scores := pySortDesc (others.map score)
    let gathered := scores.flatMap
      (fun s => (getAllVerticesU g "book").filter (fun v => v ≠ book ∧ score v = s))
    some (if gathered.length < limit then gathered else gathered.take limit)

/-! ## Weighted graph (`recommendation.py`) -/

/-- Model of `WeightedGraph._vertices`: item ↦ `_WeightedVertex` whose neighbours
are a dict from neighbour (identified by item) to weight. -/
structure WGraph where
  verts : List (Item × String × List (Item × ℚ))
deriving DecidableEq

/-- The empty weighted graph. -/
def WGraph.empty : WGraph := ⟨[]⟩

/-- First vertex entry with the given item. -/
def lookupVertW (g : WGraph) (i : Item) : Option (String × List (Item × ℚ)) :=
  (g.verts.find? (fun e => e.1 = i)).map (fun e => e.2)

/-- Vertex keys of the weighted graph. -/
def wKeys (g : WGraph) : List Item := g.verts.map (fun e => e.1)

/-- Neighbour dict of `i` (empty when `i` is absent; callers guard). -/
def adjOfW (g : WGraph) (i : Item) : List (Item × ℚ) :=
  ((lookupVertW g i).map (fun e => e.2)).getD []

/-- Keys of a neighbour dict. -/
def adjKeys (adj : List (Item × ℚ)) : List Item := adj.map (fun p => p.1)

/-- Model of `WeightedGraph.add_vertex`. -/
def addVertexW (g : WGraph) (i : Item) (k : String) : WGraph :=
  if i ∈ wKeys g then g else ⟨g.verts ++ [(i, k, [])]⟩

/-- Python dict assignment `d[x] = w`: update in place when the key exists
(keeping its position), else append. -/
def dictInsert (adj : List (Item × ℚ)) (x : Item) (w : ℚ) : List (Item × ℚ) :=
  if x ∈ adjKeys adj then adj.map (fun p => if p.1 = x then (p.1, w) else p)
  else adj ++ [(x, w)]

/-- Replace the adjacency dict of the vertex keyed `i` by `f` of it. -/
def updateAdjW (g : WGraph) (i : Item) (f : List (Item × ℚ) → List (Item × ℚ)) : WGraph :=
  ⟨g.verts.map (fun e => if e.1 = i then (e.1, e.2.1, f e.2.2) else e)⟩

/-- Model of `WeightedGraph.add_edge(item1, item2, weight)` as a state transformer
(cf. `runAddEdgeU`): sets the weight in both directions, `ValueError`
(with no mutation) when either endpoint is absent. -/
def runAddEdgeW (g : WGraph) (i1 i2 : Item) (w : ℚ) : WGraph × Option Unit :=
  if i1 ∈ wKeys g ∧ i2 ∈ wKeys g then
    (updateAdjW (updateAdjW g i1 (fun a => dictInsert a i2 w)) i2 (fun a => dictInsert a i1 w),
      some ())
  else (g, none)

/-- Model of `WeightedGraph.add_edge` as a fallible function on graph values. -/
def addEdgeW? (g : WGraph) (i1 i2 : Item) (w : ℚ) : Option WGraph :=
  (runAddEdgeW g i1 i2 w).2.map (fun _ => (runAddEdgeW g i1 i2 w).1)

/-- Model of `Graph.adjacent` as inherited by `WeightedGraph`: iterating the
neighbour dict yields its keys. -/
def adjacentW (g : WGraph) (i1 i2 : Item) : Bool :=
  if i1 ∈ wKeys g ∧ i2 ∈ wKeys g then decide (i2 ∈ adjKeys (adjOfW g i1)) else false

/-- Model of `dict.get(v2, 0)` on a neighbour dict. -/
def wOf (adj : List (Item × ℚ)) (x : Item) : ℚ :=
  ((adj.find? (fun p => p.1 = x)).map (fun p => p.2)).getD 0

/-- Model of `WeightedGraph.get_weight(item1, item2)`: `KeyError` when either item
is absent (`self._vertices[item]`), else the stored weight or 0. -/
def getWeightW? (g : WGraph) (i1 i2 : Item) : Option ℚ :=
  if i1 ∈ wKeys g ∧ i2 ∈ wKeys g then some (wOf (adjOfW g i1) i2) else none

/-- Model of `WeightedGraph.average_weight(item)`: `ValueError` when absent,
`ZeroDivisionError` when the vertex has no neighbours. -/
def averageWeightW? (g : WGraph) (i : Item) : Option ℚ :=
  match lookupVertW g i with
  | none => none
  | some e =>
    if e.2 = [] then none
    else some (((e.2.map (fun p => p.2)).sum) / (e.2.length : ℚ))

/-- Model of `WeightedGraph.get_all_vertices` (same code as the unweighted one). -/
def getAllVerticesW (g : WGraph) (kind : String) : List Item :=
  if kind ≠ "" then (g.verts.filter (fun e => e.2.1 = kind)).map (fun e => e.1)
  else wKeys g

/-- Model of `_WeightedVertex.similarity_score_unweighted`. -/
def simUnweightedW (a1 a2 : List (Item × ℚ)) : ℚ :=
  if a1 = [] ∨ a2 = [] then 0
  else
    (((adjKeys a1).toFinset ∩ (adjKeys a2).toFinset).card : ℚ) /
      (((adjKeys a1).toFinset ∪ (adjKeys a2).toFinset).card : ℚ)

/-- Model of `_WeightedVertex.similarity_score_strict`: the numerator only counts
common neighbours carrying the same weight on both sides; the denominator
is the full union of neighbour keys. -/
def simStrictW (a1 a2 : List (Item × ℚ)) : ℚ :=
  if a1 = [] ∨ a2 = [] then 0
  else
    (((adjKeys a1).toFinset.filter
        (fun x => x ∈ (adjKeys a2).toFinset ∧ wOf a1 x = wOf a2 x)).card : ℚ) /
      (((adjKeys a1).toFinset ∪ (adjKeys a2).toFinset).card : ℚ)

/-- Similarity dispatch on `score_type`: `'unweighted'` selects the
unweighted variant, anything else (including `'strict'`) the strict one. -/
def scoreOfW (g : WGraph) (scoreType : String) (i1 i2 : Item) : ℚ :=
  if scoreType = "unweighted" then simUnweightedW (adjOfW g i1) (adjOfW g i2)
  else simStrictW (adjOfW g i1) (adjOfW g i2)

/-- Model of `WeightedGraph.get_similarity_score(item1, item2, score_type)`:
`ValueError` when either item is absent. -/
def getSimilarityScoreW? (g : WGraph) (i1 i2 : Item) (scoreType : String) : Option ℚ :=
  if i1 ∈ wKeys g ∧ i2 ∈ wKeys g then some (scoreOfW g scoreType i1 i2) else none

/-- Model of `WeightedGraph.recommend_books(book, limit, score_type)`: identical
shape to the unweighted one, scoring via `score_type`. -/
def recommendBooksW? (g : WGraph) (book : Item) (limit : ℕ) (scoreType : String) :
    Option (List Item) :=
  let others := (getAllVerticesW g "book").filter (fun v => v ≠ book)
  if others ≠ [] ∧ book ∉ wKeys g then none
  else
    let score := fun v => scoreOfW g scoreType book v
    let scores := pySortDesc (others.map score)
    let gathered := scores.flatMap
      (fun s => (getAllVerticesW g "book").filter (fun v => v ≠ book ∧ score v = s))
    some (if gathered.length < limit then gathered else gathered.take limit)

/-- Model of `Graph.get_neighbours` as inherited by `WeightedGraph`: iterating the
neighbour dict yields its keys. -/
def getNeighboursW? (g : WGraph) (i : Item) : Option (List Item) :=
  (lookupVertW g i).map (fun e => adjKeys e.2)

/-! ## Rating predictors (`predictions.py`) -/

/-- Model of `FiveStarPredictor.predict_review_score(user, book)`: the stored weight
when an edge exists, else the constant 5. -/
def predictFiveStar (g : WGraph) (user book : Item) : Option ℚ :=
  if adjacentW g user book then getWeightW? g user book else some 5

/-- Model of `BookAverageScorePredictor.predict_review_score(user, book)`: the
stored weight when an edge exists, else the rounded average weight of the
book. -/
def predictBookAvg (g : WGraph) (user book : Item) : Option ℚ :=
  if adjacentW g user book then getWeightW? g user book
  else (averageWeightW? g book).map (fun a => (pyRound a : ℚ))

/-- Model of `SimilarUserPredictor.predict_review_score(user, book)`: over every
user vertex whose weight to `book` is positive, accumulate
strict-similarity × review-score (the `score_predictor` list, kept here as
its running sum) and the total similarity; if the former sum is 0 fall
back to the book's rounded average weight, else return the rounded
weighted average.  The constructor's `score_type` is stored but unused:
the lookup hard-codes `'strict'`. -/
def predictSimilarUser (g : WGraph) (_scoreType : String) (user book : Item) : Option ℚ :=
  if adjacentW g user book then getWeightW? g user book
  else
    (getAllVerticesW g "user").foldlM
      (fun (acc : ℚ × ℚ) u => do
        let w ← getWeightW? g u book
        if 0 < w then
          let s ← getSimilarityScoreW? g user u "strict"
          pure (acc.1 + s * w, acc.2 + s)
        else pure acc)
      ((0 : ℚ), (0 : ℚ)) >>= fun acc =>
    if acc.1 = 0 then (averageWeightW? g book).map (fun a => (pyRound a : ℚ))
    else some ((pyRound (acc.1 / acc.2) : ℚ))

/-! ## Clustering (`cluster_weight.py`) -/

/-- Total core of `cross_cluster_weight`: sum of `get_weight(u, v)` over
the product of the clusters divided by the product of their sizes
(`wOf _ _ = 0` for missing edges). -/
def ccw (g : WGraph) (c1 c2 : Finset Item) : ℚ :=
  (∑ u ∈ c1, ∑ v ∈ c2, wOf (adjOfW g u) v) / ((c1.card : ℚ) * (c2.card : ℚ))

/-- Model of `cross_cluster_weight(book_graph, cluster1, cluster2)` with its error
behaviour: `KeyError` when some member of either (non-empty) cluster is
absent from the graph, `ZeroDivisionError` when either cluster is empty. -/
def crossClusterWeight? (g : WGraph) (c1 c2 : Finset Item) : Option ℚ :=
  if c1.Nonempty ∧ c2.Nonempty ∧ (∀ u ∈ c1, u ∈ wKeys g) ∧ (∀ v ∈ c2, v ∈ wKeys g) then
    some (ccw g c1 c2)
  else none

/-- The inner loop of `find_clusters_random`: scan every cluster index
`j ≠ k` (object identity `c1 is not c2` coincides with index inequality,
as the cluster list never holds the same object twice) and keep the first
strictly improving score, starting from `best = -1`. -/
def bestPartner (g : WGraph) (clusters : List (Finset Item)) (k : ℕ) (c1 : Finset Item) :
    ℚ × Option ℕ :=
  (List.range clusters.length).foldl
    (fun acc j =>
      if j ≠ k then
        let score := ccw g c1 (clusters.getD j ∅)
        if acc.1 < score then (score, some j) else acc
      else acc)
    (-1, none)

/-- One round of `find_clusters_random` given the index the
`random.choice` call picked (reduced mod the list length so every
possible choice is covered): merge the chosen cluster into its best
partner (`best_c2.update(c1)` then `clusters.remove(c1)`, which removes
the first list element equal to `c1`).  `none` models the
`AttributeError` when `best_c2` is still `None`. -/
def randStep (g : WGraph) (clusters : List (Finset Item)) (pickIdx : ℕ) :
    Option (List (Finset Item)) :=
  if clusters.isEmpty then none
  else
    let k := pickIdx % clusters.length
    let c1 := clusters.getD k ∅
    match (bestPartner g clusters k c1).2 with
    | none => none
    | some j =>
      let c2 := clusters.getD j ∅
      some ((clusters.set j (c2 ∪ c1)).erase c1)

/-- Model of `find_clusters_random(graph, num_clusters)`: start from singleton
clusters of every vertex key and run `len(clusters) - num_clusters` merge
rounds.  `pick` supplies the outcome of each round's `random.choice`. -/
def findClustersRandom (g : WGraph) (numClusters : ℕ) (pick : ℕ → ℕ) :
    Option (List (Finset Item)) :=
  let init := (getAllVerticesW g "").map (fun b => ({b} : Finset Item))
  (List.range (init.length - numClusters)).foldlM
    (fun cl i => randStep g cl (pick i)) init

/-- The nested pair search of `find_clusters_greedy`: for `i1` in
`range(len)` and `i2` in `range(i1+1, len)` keep the first strictly
improving score, starting from `best = -1`. -/
def bestPairGreedy (g : WGraph) (clusters : List (Finset Item)) :
    ℚ × Option (ℕ × ℕ) :=
  (List.range clusters.length).foldl
    (fun acc i1 =>
      (List.range' (i1 + 1) (clusters.length - (i1 + 1))).foldl
        (fun acc2 i2 =>
          let score := ccw g (clusters.getD i1 ∅) (clusters.getD i2 ∅)
          if acc2.1 < score then (score, some (i1, i2)) else acc2)
        acc)
    (-1, none)

/-- One round of `find_clusters_greedy`: merge the globally best pair
(`best_c2.update(best_c1)` then `clusters.remove(best_c1)`). -/
def greedyStep (g : WGraph) (clusters : List (Finset Item)) :
    Option (List (Finset Item)) :=
  match (bestPairGreedy g clusters).2 with
  | none => none
  | some p =>
    let c1 := clusters.getD p.1 ∅
    let c2 := clusters.getD p.2 ∅
    some ((clusters.set p.2 (c2 ∪ c1)).erase c1)

/-- Model of `find_clusters_greedy(graph, num_clusters)`. -/
def findClustersGreedy (g : WGraph) (numClusters : ℕ) :
    Option (List (Finset Item)) :=
  let init := (getAllVerticesW g "").map (fun b => ({b} : Finset Item))
  (List.range (init.length - numClusters)).foldlM
    (fun cl _ => greedyStep g cl) init

/-! ## Call sequences, for reachable-state invariants -/

/-- A mutating call on the unweighted graph. -/
inductive UOp where
  | addV : Item → String → UOp
  | addE : Item → Item → UOp
deriving DecidableEq

/-- Run one unweighted call; a failed `add_edge` raises after mutating
nothing, so the state is carried through unchanged. -/
def applyUOp (g : UGraph) : UOp → UGraph
  | .addV i k => addVertexU g i k
  | .addE i j => (runAddEdgeU g i j).1

/-- State after a sequence of calls starting from the empty graph. -/
def runUOps (ops : List UOp) : UGraph := ops.foldl applyUOp UGraph.empty

/-- A mutating call on the weighted graph. -/
inductive WOp where
  | addV : Item → String → WOp
  | addE : Item → Item → ℚ → WOp
deriving DecidableEq

/-- Run one weighted call (failed `add_edge` mutates nothing). -/
def applyWOp (g : WGraph) : WOp → WGraph
  | .addV i k => addVertexW g i k
  | .addE i j w => (runAddEdgeW g i j w).1

/-- State after a sequence of weighted calls from the empty graph. -/
def runWOps (ops : List WOp) : WGraph := ops.foldl applyWOp WGraph.empty

/-- Union of a cluster list (the set of items it covers). -/
def unionOf (l : List (Finset Item)) : Finset Item := l.foldr (fun a b => a ∪ b) ∅

/-- All stored edge weights of the graph are nonnegative. -/
def NonnegWeights (g : WGraph) : Prop :=
  ∀ e ∈ g.verts, ∀ p ∈ e.2.2, (0 : ℚ) ≤ p.2

instance : DecidablePred NonnegWeights := fun g =>
  inferInstanceAs (Decidable (∀ e ∈ g.verts, ∀ p ∈ e.2.2, (0 : ℚ) ≤ p.2))

/-- What the clustering spec promises of a result: clusters are non-empty,
pairwise disjoint, and cover exactly the graph's vertex-key set. -/
def IsClusterPartition (g : WGraph) (cl : List (Finset Item)) : Prop :=
  (∀ c ∈ cl, c.Nonempty) ∧ List.Pairwise (fun a b => Disjoint a b) cl ∧
    unionOf cl = (wKeys g).toFinset

/-- The similar-user prediction as claim C5 words it (spec side, for
comparison with `predictSimilarUser`): the weighted average runs over
every *other* user *with an edge to the book* (rather than the code's
positive-weight test), with the strict similarity as weight, falling back
to the rounded book average when the total similarity is zero. -/
def specSimilarPrediction (g : WGraph) (user book : Item) : Option ℚ :=
  let others := (getAllVerticesW g "user").filter
    (fun u => decide (u ≠ user) && adjacentW g u book)
  let s := (others.map (fun u => scoreOfW g "strict" user u)).sum
  let n := (others.map (fun u => scoreOfW g "strict" user u * wOf (adjOfW g u) book)).sum
  if s = 0 then (averageWeightW? g book).map (fun a => (pyRound a : ℚ))
  else some ((pyRound (n / s) : ℚ))

/-! ## Concrete input graphs used by witnesses and counterexamples -/

/-- Three book vertices, no edges: all pairwise similarity scores tie at 0. -/
def gDup : UGraph :=
  [(1 : Item), 2, 3].foldl (fun g i => addVertexU g i "book") UGraph.empty

/-- Books 1, 2, 3 and users 10, 11, with review edges making the
similarity scores of books 2 and 3 to book 1 distinct (1 and 1/2). -/
def gBooks : UGraph :=
  let g0 := ([((1 : Item), "book"), (2, "book"), (3, "book"),
              (10, "user"), (11, "user")]).foldl
    (fun g p => addVertexU g p.1 p.2) UGraph.empty
  [((1 : Item), (10 : Item)), (1, 11), (2, 10), (2, 11), (3, 10)].foldl
    (fun g p => (runAddEdgeU g p.1 p.2).1) g0

/-- Weighted counterpart of `gBooks` (all weights 1). -/
def gBooksW : WGraph :=
  let g0 := ([((1 : Item), "book"), (2, "book"), (3, "book"),
              (10, "user"), (11, "user")]).foldl
    (fun g p => addVertexW g p.1 p.2) WGraph.empty
  [((1 : Item), (10 : Item)), (1, 11), (2, 10), (2, 11), (3, 10)].foldl
    (fun g p => (runAddEdgeW g p.1 p.2 1).1) g0

/-- Users 10, 11, 12 and books 20, 21; user 11 reviewed book 20 with
weight 0, user 12 with weight 4, and all three users reviewed book 21
with weight 2 (so both strict similarities to user 10 are 1/2). -/
def gRev : WGraph :=
  let g0 := [((10 : Item), "user"), (11, "user"), (12, "user"),
             (20, "book"), (21, "book")].foldl
    (fun g p => addVertexW g p.1 p.2) WGraph.empty
  [((10 : Item), (21 : Item), (2 : ℚ)), (11, 21, 2), (12, 21, 2),
   (11, 20, 0), (12, 20, 4)].foldl
    (fun g t => (runAddEdgeW g t.1 t.2.1 t.2.2).1) g0

/-- One user and one book, no edges yet. -/
def gPair : WGraph :=
  addVertexW (addVertexW WGraph.empty 1 "user") 2 "book"

/-- Two book vertices joined by an edge of weight −2. -/
def gNeg : WGraph :=
  let g0 := [((1 : Item), "book"), (2, "book")].foldl
    (fun g p => addVertexW g p.1 p.2) WGraph.empty
  (runAddEdgeW g0 1 2 (-2)).1

/-- Three book vertices with positive edges 1–2 (weight 2) and 2–3
(weight 5). -/
def gPos : WGraph :=
  let g0 := [((1 : Item), "book"), (2, "book"), (3, "book")].foldl
    (fun g p => addVertexW g p.1 p.2) WGraph.empty
  (runAddEdgeW ((runAddEdgeW g0 1 2 2).1) 2 3 5).1

/-- The doctest graph of `Graph.get_similarity_score`: users 0–5 with
edges 0–2, 0–3, 0–4, 1–3, 1–4, 1–5. -/
def gDoc : UGraph :=
  let g0 := [0, 1, 2, 3, 4, 5].foldl (fun g i => addVertexU g i "user") UGraph.empty
  [((0 : Item), (2 : Item)), (0, 3), (0, 4), (1, 3), (1, 4), (1, 5)].foldl
    (fun g p => (runAddEdgeU g p.1 p.2).1) g0

/-! ## Infrastructure lemmas -/

theorem mem_keysU (g : UGraph) (i : Item) : i ∈ keysU g ↔ (lookupVertU g i).isSome := by
  simp [keysU, lookupVertU, List.find?_isSome, List.mem_map]

theorem mem_wKeys (g : WGraph) (i : Item) : i ∈ wKeys g ↔ (lookupVertW g i).isSome := by
  simp [wKeys, lookupVertW, List.find?_isSome, List.mem_map]

theorem lookupVertU_updateAdjU (g : UGraph) (i x : Item) (f : List Item → List Item) :
    lookupVertU (updateAdjU g i f) x =
      (g.verts.find? (fun e => e.1 = x)).map
        (fun e => if e.1 = i then (e.2.1, f e.2.2) else e.2) := by
  unfold lookupVertU updateAdjU
  rw [List.find?_map]
  have hp : ((fun e : Item × String × List Item => decide (e.1 = x)) ∘
      (fun e => if e.1 = i then (e.1, e.2.1, f e.2.2) else e)) =
      fun e => decide (e.1 = x) := by
    funext e; by_cases h : e.1 = i <;> simp [h]
  rw [hp, Option.map_map]
  congr 1
  funext e; by_cases h : e.1 = i <;> simp [h]

theorem lookupVertW_updateAdjW (g : WGraph) (i x : Item)
    (f : List (Item × ℚ) → List (Item × ℚ)) :
    lookupVertW (updateAdjW g i f) x =
      (g.verts.find? (fun e => e.1 = x)).map
        (fun e => if e.1 = i then (e.2.1, f e.2.2) else e.2) := by
  unfold lookupVertW updateAdjW
  rw [List.find?_map]
  have hp : ((fun e : Item × String × List (Item × ℚ) => decide (e.1 = x)) ∘
      (fun e => if e.1 = i then (e.1, e.2.1, f e.2.2) else e)) =
      fun e => decide (e.1 = x) := by
    funext e; by_cases h : e.1 = i <;> simp [h]
  rw [hp, Option.map_map]
  congr 1
  funext e; by_cases h : e.1 = i <;> simp [h]

theorem keysU_updateAdjU (g : UGraph) (i : Item) (f : List Item → List Item) :
    keysU (updateAdjU g i f) = keysU g := by
  unfold keysU updateAdjU
  rw [List.map_map]
  apply List.map_congr_left
  intro e _
  by_cases h : e.1 = i <;> simp [h]

theorem wKeys_updateAdjW (g : WGraph) (i : Item)
    (f : List (Item × ℚ) → List (Item × ℚ)) :
    wKeys (updateAdjW g i f) = wKeys g := by
  unfold wKeys updateAdjW
  rw [List.map_map]
  apply List.map_congr_left
  intro e _
  by_cases h : e.1 = i <;> simp [h]

theorem adjOfU_updateAdjU_self (g : UGraph) (i : Item) (f : List Item → List Item)
    (h : i ∈ keysU g) : adjOfU (updateAdjU g i f) i = f (adjOfU g i) := by
  have hs : (lookupVertU g i).isSome := (mem_keysU g i).1 h
  unfold adjOfU
  rw [lookupVertU_updateAdjU]
  unfold lookupVertU at hs ⊢
  cases hfind : g.verts.find? (fun e => e.1 = i) with
  | none => rw [hfind] at hs; simp at hs
  | some e =>
    have he1 : e.1 = i := by simpa using List.find?_some hfind
    simp [he1]

theorem adjOfU_updateAdjU_ne (g : UGraph) (i x : Item) (f : List Item → List Item)
    (h : x ≠ i) : adjOfU (updateAdjU g i f) x = adjOfU g x := by
  unfold adjOfU
  rw [lookupVertU_updateAdjU]
  unfold lookupVertU
  cases hfind : g.verts.find? (fun e => e.1 = x) with
  | none => simp
  | some e =>
    have he1 : e.1 = x := by simpa using List.find?_some hfind
    have : ¬ (e.1 = i) := by rw [he1]; exact h
    simp [this]

theorem adjOfW_updateAdjW_self (g : WGraph) (i : Item)
    (f : List (Item × ℚ) → List (Item × ℚ))
    (h : i ∈ wKeys g) : adjOfW (updateAdjW g i f) i = f (adjOfW g i) := by
  have hs : (lookupVertW g i).isSome := (mem_wKeys g i).1 h
  unfold adjOfW
  rw [lookupVertW_updateAdjW]
  unfold lookupVertW at hs ⊢
  cases hfind : g.verts.find? (fun e => e.1 = i) with
  | none => rw [hfind] at hs; simp at hs
  | some e =>
    have he1 : e.1 = i := by simpa using List.find?_some hfind
    simp [he1]

theorem adjOfW_updateAdjW_ne (g : WGraph) (i x : Item)
    (f : List (Item × ℚ) → List (Item × ℚ))
    (h : x ≠ i) : adjOfW (updateAdjW g i f) x = adjOfW g x := by
  unfold adjOfW
  rw [lookupVertW_updateAdjW]
  unfold lookupVertW
  cases hfind : g.verts.find? (fun e => e.1 = x) with
  | none => simp
  | some e =>
    have he1 : e.1 = x := by simpa using List.find?_some hfind
    have : ¬ (e.1 = i) := by rw [he1]; exact h
    simp [this]

theorem keysU_addVertexU (g : UGraph) (i : Item) (k : String) :
    keysU (addVertexU g i k) = if i ∈ keysU g then keysU g else keysU g ++ [i] := by
  unfold addVertexU keysU
  split <;> simp

theorem wKeys_addVertexW (g : WGraph) (i : Item) (k : String) :
    wKeys (addVertexW g i k) = if i ∈ wKeys g then wKeys g else wKeys g ++ [i] := by
  unfold addVertexW wKeys
  split <;> simp

theorem adjOfU_addVertexU (g : UGraph) (i : Item) (k : String) (x : Item) :
    adjOfU (addVertexU g i k) x = adjOfU g x ∨ adjOfU (addVertexU g i k) x = [] := by
  unfold addVertexU
  split
  · exact Or.inl rfl
  · unfold adjOfU lookupVertU
    rw [List.find?_append]
    cases hfind : g.verts.find? (fun e => e.1 = x) with
    | none =>
      by_cases hx : i = x <;> simp [hx]
    | some e => simp

theorem adjOfW_addVertexW (g : WGraph) (i : Item) (k : String) (x : Item) :
    adjOfW (addVertexW g i k) x = adjOfW g x ∨ adjOfW (addVertexW g i k) x = [] := by
  unfold addVertexW
  split
  · exact Or.inl rfl
  · unfold adjOfW lookupVertW
    rw [List.find?_append]
    cases hfind : g.verts.find? (fun e => e.1 = x) with
    | none =>
      by_cases hx : i = x <;> simp [hx]
    | some e => simp

theorem mem_setInsert (l : List Item) (x y : Item) :
    y ∈ setInsert l x ↔ y ∈ l ∨ y = x := by
  unfold setInsert
  split
  · next hx =>
    constructor
    · exact Or.inl
    · rintro (h | rfl)
      · exact h
      · exact hx
  · simp

theorem adjKeys_replace (adj : List (Item × ℚ)) (x : Item) (w : ℚ) :
    adjKeys (adj.map (fun p => if p.1 = x then (p.1, w) else p)) = adjKeys adj := by
  unfold adjKeys
  rw [List.map_map]
  apply List.map_congr_left
  intro p _
  by_cases h : p.1 = x <;> simp [h]

theorem adjKeys_dictInsert (adj : List (Item × ℚ)) (x : Item) (w : ℚ) (y : Item) :
    y ∈ adjKeys (dictInsert adj x w) ↔ y ∈ adjKeys adj ∨ y = x := by
  unfold dictInsert
  split
  · next hmem =>
    rw [adjKeys_replace]
    constructor
    · exact Or.inl
    · rintro (h | rfl)
      · exact h
      · exact hmem
  · unfold adjKeys
    simp [List.map_append]

theorem wOf_dictInsert_self (adj : List (Item × ℚ)) (x : Item) (w : ℚ) :
    wOf (dictInsert adj x w) x = w := by
  unfold dictInsert
  split
  · next hmem =>
    obtain ⟨p, hp, hpy⟩ := List.mem_map.1 hmem
    unfold wOf
    rw [List.find?_map]
    have hp2 : ((fun q : Item × ℚ => decide (q.1 = x)) ∘
        (fun q => if q.1 = x then (q.1, w) else q)) = fun q => decide (q.1 = x) := by
      funext q; by_cases h : q.1 = x <;> simp [h]
    rw [hp2]
    have : (adj.find? (fun q => q.1 = x)).isSome := by
      rw [List.find?_isSome]; exact ⟨p, hp, by simp [hpy]⟩
    cases hfind : adj.find? (fun q => q.1 = x) with
    | none => rw [hfind] at this; simp at this
    | some q =>
      have hq1 : q.1 = x := by simpa using List.find?_some hfind
      simp [hq1]
  · next hmem =>
    unfold wOf
    rw [List.find?_append]
    have : adj.find? (fun q => q.1 = x) = none := by
      rw [List.find?_eq_none]
      intro p hp
      simp only [decide_eq_true_eq]
      intro h
      exact hmem (List.mem_map.2 ⟨p, hp, h⟩)
    simp [this]

theorem wOf_dictInsert_ne (adj : List (Item × ℚ)) (x : Item) (w : ℚ) (y : Item)
    (h : y ≠ x) : wOf (dictInsert adj x w) y = wOf adj y := by
  unfold dictInsert
  split
  · unfold wOf
    rw [List.find?_map]
    have hp2 : ((fun q : Item × ℚ => decide (q.1 = y)) ∘
        (fun q => if q.1 = x then (q.1, w) else q)) = fun q => decide (q.1 = y) := by
      funext q; by_cases hq : q.1 = x <;> simp [hq]
    rw [hp2]
    cases hfind : adj.find? (fun q => q.1 = y) with
    | none => simp
    | some q =>
      have hq1 : q.1 = y := by simpa using List.find?_some hfind
      have : ¬ (q.1 = x) := by rw [hq1]; exact h
      simp [this]
  · unfold wOf
    rw [List.find?_append]
    cases hfind : adj.find? (fun q => q.1 = y) with
    | none => simp [Ne.symm h]
    | some q => simp

theorem mem_adjKeys_dictInsert_self (adj : List (Item × ℚ)) (x : Item) (w : ℚ) :
    x ∈ adjKeys (dictInsert adj x w) :=
  (adjKeys_dictInsert adj x w x).2 (Or.inr rfl)

theorem lookupVertW_eq_none_of_absent (g : WGraph) (i : Item) (h : i ∉ wKeys g) :
    lookupVertW g i = none := by
  cases hl : lookupVertW g i with
  | none => rfl
  | some e => exact absurd ((mem_wKeys g i).2 (by rw [hl]; rfl)) h

/-! ## Claim C7: `add_edge` stores the weight symmetrically -/

/-- C7: for every weighted graph with `a` and `b` present, `add_edge(a, b, w)`
succeeds and afterwards `adjacent(a, b)` and `adjacent(b, a)` hold and
`get_weight(a, b) = get_weight(b, a) = w`, also when the pair already had
an edge of a different weight. -/
theorem C7_theorem (g : WGraph) (a b : Item) (w : ℚ)
    (ha : a ∈ wKeys g) (hb : b ∈ wKeys g) :
    ∃ g2, addEdgeW? g a b w = some g2 ∧
      adjacentW g2 a b = true ∧ adjacentW g2 b a = true ∧
      getWeightW? g2 a b = some w ∧ getWeightW? g2 b a = some w := by
  have hcond : a ∈ wKeys g ∧ b ∈ wKeys g := ⟨ha, hb⟩
  refine ⟨(runAddEdgeW g a b w).1, ?_, ?_⟩
  · unfold addEdgeW? runAddEdgeW
    rw [if_pos hcond]
    rfl
  · set inner := updateAdjW g a (fun adj => dictInsert adj b w) with hinner
    have hg2 : (runAddEdgeW g a b w).1 =
        updateAdjW inner b (fun adj => dictInsert adj a w) := by
      unfold runAddEdgeW
      rw [if_pos hcond]
    set g2 := (runAddEdgeW g a b w).1 with hg2d
    have hkeysInner : wKeys inner = wKeys g := by rw [hinner, wKeys_updateAdjW]
    have hkeys : wKeys g2 = wKeys g := by rw [hg2, wKeys_updateAdjW, hkeysInner]
    have hadjA : b ∈ adjKeys (adjOfW g2 a) ∧ wOf (adjOfW g2 a) b = w := by
      by_cases hab : a = b
      · subst hab
        have h1 : adjOfW inner a = dictInsert (adjOfW g a) a w := by
          rw [hinner]; exact adjOfW_updateAdjW_self g a _ ha
        have h2 : adjOfW g2 a = dictInsert (adjOfW inner a) a w := by
          rw [hg2]; exact adjOfW_updateAdjW_self inner a _ (hkeysInner ▸ ha)
        rw [h2]
        exact ⟨mem_adjKeys_dictInsert_self _ a w, wOf_dictInsert_self _ a w⟩
      · have h2 : adjOfW g2 a = adjOfW inner a := by
          rw [hg2]; exact adjOfW_updateAdjW_ne inner b a _ hab
        have h1 : adjOfW inner a = dictInsert (adjOfW g a) b w := by
          rw [hinner]; exact adjOfW_updateAdjW_self g a _ ha
        rw [h2, h1]
        exact ⟨mem_adjKeys_dictInsert_self _ b w, wOf_dictInsert_self _ b w⟩
    have hadjB : a ∈ adjKeys (adjOfW g2 b) ∧ wOf (adjOfW g2 b) a = w := by
      by_cases hab : a = b
      · subst hab; exact hadjA
      · have h2 : adjOfW g2 b = dictInsert (adjOfW inner b) a w := by
          rw [hg2]; exact adjOfW_updateAdjW_self inner b _ (hkeysInner ▸ hb)
        have h1 : adjOfW inner b = adjOfW g b := by
          rw [hinner]; exact adjOfW_updateAdjW_ne g a b _ (Ne.symm hab)
        rw [h2, h1]
        exact ⟨mem_adjKeys_dictInsert_self _ a w, wOf_dictInsert_self _ a w⟩
    refine ⟨?_, ?_, ?_, ?_⟩
    · unfold adjacentW
      rw [hkeys, if_pos hcond]
      exact decide_eq_true hadjA.1
    · unfold adjacentW
      rw [hkeys, if_pos ⟨hcond.2, hcond.1⟩]
      exact decide_eq_true hadjB.1
    · unfold getWeightW?
      rw [hkeys, if_pos hcond, hadjA.2]
    · unfold getWeightW?
      rw [hkeys, if_pos ⟨hcond.2, hcond.1⟩, hadjB.2]

/-- C7 witness: the theorem applied to the concrete graph `gPair` and
weight 4. -/
theorem C7_witness :
    ((1 : Item) ∈ wKeys gPair ∧ (2 : Item) ∈ wKeys gPair) ∧
    ∃ g2, addEdgeW? gPair 1 2 4 = some g2 ∧
      adjacentW g2 1 2 = true ∧ adjacentW g2 2 1 = true ∧
      getWeightW? g2 1 2 = some 4 ∧ getWeightW? g2 2 1 = some 4 :=
  ⟨⟨by decide, by decide⟩, C7_theorem gPair 1 2 4 (by decide) (by decide)⟩

/-! ## Claim C10: failed `add_edge` raises and changes nothing -/

/-- C10: on both graph variants, `add_edge` with an absent endpoint raises
(`none` result) and the state after the call is the unchanged graph. -/
theorem C10_theorem :
    (∀ (g : UGraph) (a b : Item), a ∉ keysU g ∨ b ∉ keysU g →
        runAddEdgeU g a b = (g, none)) ∧
    (∀ (g : WGraph) (a b : Item) (w : ℚ), a ∉ wKeys g ∨ b ∉ wKeys g →
        runAddEdgeW g a b w = (g, none)) := by
  constructor
  · intro g a b h
    unfold runAddEdgeU
    rw [if_neg]
    tauto
  · intro g a b w h
    unfold runAddEdgeW
    rw [if_neg]
    tauto

/-- C10 witness: both parts applied at concrete absent endpoints. -/
theorem C10_witness :
    runAddEdgeU UGraph.empty 0 1 = (UGraph.empty, none) ∧
    runAddEdgeW gPair 1 5 3 = (gPair, none) :=
  ⟨C10_theorem.1 UGraph.empty 0 1 (Or.inl (by decide)),
   C10_theorem.2 gPair 1 5 3 (Or.inr (by decide))⟩

/-! ## Claim C3: predictor behaviour on absent keys -/

/-- C3 counterexample: `FiveStarPredictor.predict_review_score` on keys
absent from the (empty) graph returns the normal rating 5 instead of
failing with a lookup error, refuting the claim that every predictor
variant fails for absent keys. -/
theorem C3_counterexample :
    (0 : Item) ∉ wKeys WGraph.empty ∧ (1 : Item) ∉ wKeys WGraph.empty ∧
    predictFiveStar WGraph.empty 0 1 = some 5 := by decide

/-- C3 amended: `BookAverageScorePredictor` and `SimilarUserPredictor`
fail with a lookup error whenever `book` is absent; `FiveStarPredictor`
never fails, returning 5 whenever the pair is not adjacent (hence also
for absent keys). -/
theorem C3_amended (g : WGraph) (st : String) (user book : Item)
    (hb : book ∉ wKeys g) :
    predictBookAvg g user book = none ∧ predictSimilarUser g st user book = none ∧
    (∀ (g2 : WGraph) (u b2 : Item), adjacentW g2 u b2 = false →
      predictFiveStar g2 u b2 = some 5) := by
  have hadj : adjacentW g user book = false := by
    unfold adjacentW
    rw [if_neg]
    intro hc
    exact hb hc.2
  have havg : averageWeightW? g book = none := by
    unfold averageWeightW?
    rw [lookupVertW_eq_none_of_absent g book hb]
  refine ⟨?_, ?_, ?_⟩
  · unfold predictBookAvg
    rw [hadj]
    simp [havg]
  · unfold predictSimilarUser
    rw [hadj]
    simp only [Bool.false_eq_true, if_false]
    have hw : ∀ u : Item, getWeightW? g u book = none := by
      intro u
      unfold getWeightW?
      rw [if_neg]
      intro hc
      exact hb hc.2
    cases husers : getAllVerticesW g "user" with
    | nil =>
      simp [havg]
    | cons u us =>
      rw [List.foldlM_cons, hw u]
      rfl
  · intro g2 u b2 h2
    unfold predictFiveStar
    rw [h2]
    rfl

/-- C3 witness: the amended theorem applied to a graph holding only user 0
and the absent book 5. -/
theorem C3_witness :
    ((5 : Item) ∉ wKeys (addVertexW WGraph.empty 0 "user")) ∧
    (predictBookAvg (addVertexW WGraph.empty 0 "user") 0 5 = none ∧
     predictSimilarUser (addVertexW WGraph.empty 0 "user") "strict" 0 5 = none ∧
     (∀ (g2 : WGraph) (u b2 : Item), adjacentW g2 u b2 = false →
       predictFiveStar g2 u b2 = some 5)) :=
  ⟨by decide, C3_amended (addVertexW WGraph.empty 0 "user") "strict" 0 5 (by decide)⟩

/-! ## Claim C2: self-loops -/

theorem getNeighboursU_eq (g : UGraph) (x : Item) (l : List Item)
    (h : getNeighboursU? g x = some l) : l = adjOfU g x := by
  unfold getNeighboursU? at h
  unfold adjOfU lookupVertU
  unfold lookupVertU at h
  cases hl : (g.verts.find? (fun e => e.1 = x)) with
  | none => rw [hl] at h; simp at h
  | some e =>
    rw [hl] at h
    simp at h
    simp [h]

theorem getNeighboursW_eq (g : WGraph) (x : Item) (l : List Item)
    (h : getNeighboursW? g x = some l) : l = adjKeys (adjOfW g x) := by
  unfold getNeighboursW? at h
  unfold adjOfW lookupVertW
  unfold lookupVertW at h
  cases hl : (g.verts.find? (fun e => e.1 = x)) with
  | none => rw [hl] at h; simp at h
  | some e =>
    rw [hl] at h
    simp at h
    simp [h]

theorem selfFreeU_addVertex (g : UGraph) (i : Item) (k : String)
    (hinv : ∀ x, x ∉ adjOfU g x) : ∀ x, x ∉ adjOfU (addVertexU g i k) x := by
  intro x
  rcases adjOfU_addVertexU g i k x with h | h <;> rw [h]
  · exact hinv x
  · simp

theorem selfFreeU_addEdge (g : UGraph) (i j : Item) (hij : i ≠ j)
    (hinv : ∀ x, x ∉ adjOfU g x) : ∀ x, x ∉ adjOfU (runAddEdgeU g i j).1 x := by
  intro x
  unfold runAddEdgeU
  split
  · next hcond =>
    show x ∉ adjOfU (updateAdjU (updateAdjU g i fun a => setInsert a j) j
      fun a => setInsert a i) x
    by_cases hxj : x = j
    · rw [hxj]
      rw [adjOfU_updateAdjU_self _ j _ (by rw [keysU_updateAdjU]; exact hcond.2)]
      rw [adjOfU_updateAdjU_ne g i j _ (Ne.symm hij)]
      rw [mem_setInsert]
      push_neg
      exact ⟨hinv j, Ne.symm hij⟩
    · by_cases hxi : x = i
      · rw [hxi]
        rw [adjOfU_updateAdjU_ne _ j i _ (hxi ▸ hxj)]
        rw [adjOfU_updateAdjU_self g i _ hcond.1]
        rw [mem_setInsert]
        push_neg
        exact ⟨hinv i, hij⟩
      · rw [adjOfU_updateAdjU_ne _ j x _ hxj, adjOfU_updateAdjU_ne g i x _ hxi]
        exact hinv x
  · exact hinv x

theorem selfFreeW_addVertex (g : WGraph) (i : Item) (k : String)
    (hinv : ∀ x, x ∉ adjKeys (adjOfW g x)) :
    ∀ x, x ∉ adjKeys (adjOfW (addVertexW g i k) x) := by
  intro x
  rcases adjOfW_addVertexW g i k x with h | h <;> rw [h]
  · exact hinv x
  · simp [adjKeys]

theorem selfFreeW_addEdge (g : WGraph) (i j : Item) (w : ℚ) (hij : i ≠ j)
    (hinv : ∀ x, x ∉ adjKeys (adjOfW g x)) :
    ∀ x, x ∉ adjKeys (adjOfW (runAddEdgeW g i j w).1 x) := by
  intro x
  unfold runAddEdgeW
  split
  · next hcond =>
    show x ∉ adjKeys (adjOfW (updateAdjW (updateAdjW g i fun a => dictInsert a j w) j
      fun a => dictInsert a i w) x)
    by_cases hxj : x = j
    · rw [hxj]
      rw [adjOfW_updateAdjW_self _ j _ (by rw [wKeys_updateAdjW]; exact hcond.2)]
      rw [adjOfW_updateAdjW_ne g i j _ (Ne.symm hij)]
      rw [adjKeys_dictInsert]
      push_neg
      exact ⟨hinv j, Ne.symm hij⟩
    · by_cases hxi : x = i
      · rw [hxi]
        rw [adjOfW_updateAdjW_ne _ j i _ (hxi ▸ hxj)]
        rw [adjOfW_updateAdjW_self g i _ hcond.1]
        rw [adjKeys_dictInsert]
        push_neg
        exact ⟨hinv i, hij⟩
      · rw [adjOfW_updateAdjW_ne _ j x _ hxj, adjOfW_updateAdjW_ne g i x _ hxi]
        exact hinv x
  · exact hinv x

theorem selfFreeU_runOps (ops : List UOp)
    (hops : ∀ i j, UOp.addE i j ∈ ops → i ≠ j) :
    ∀ x, x ∉ adjOfU (runUOps ops) x := by
  suffices h : ∀ (l : List UOp) (g : UGraph), (∀ i j, UOp.addE i j ∈ l → i ≠ j) →
      (∀ x, x ∉ adjOfU g x) → ∀ x, x ∉ adjOfU (l.foldl applyUOp g) x by
    refine h ops UGraph.empty hops ?_
    intro x
    simp [adjOfU, lookupVertU, UGraph.empty]
  intro l
  induction l with
  | nil => intro g _ hinv; exact hinv
  | cons op rest ih =>
    intro g hl hinv
    rw [List.foldl_cons]
    refine ih _ (fun i j hmem => hl i j (List.mem_cons_of_mem _ hmem)) ?_
    cases op with
    | addV i k => exact selfFreeU_addVertex g i k hinv
    | addE i j => exact selfFreeU_addEdge g i j (hl i j (List.mem_cons_self _ _)) hinv

theorem selfFreeW_runOps (ops : List WOp)
    (hops : ∀ i j w, WOp.addE i j w ∈ ops → i ≠ j) :
    ∀ x, x ∉ adjKeys (adjOfW (runWOps ops) x) := by
  suffices h : ∀ (l : List WOp) (g : WGraph), (∀ i j w, WOp.addE i j w ∈ l → i ≠ j) →
      (∀ x, x ∉ adjKeys (adjOfW g x)) →
      ∀ x, x ∉ adjKeys (adjOfW (l.foldl applyWOp g) x) by
    refine h ops WGraph.empty hops ?_
    intro x
    simp [adjOfW, lookupVertW, WGraph.empty, adjKeys]
  intro l
  induction l with
  | nil => intro g _ hinv; exact hinv
  | cons op rest ih =>
    intro g hl hinv
    rw [List.foldl_cons]
    refine ih _ (fun i j w hmem => hl i j w (List.mem_cons_of_mem _ hmem)) ?_
    cases op with
    | addV i k => exact selfFreeW_addVertex g i k hinv
    | addE i j w => exact selfFreeW_addEdge g i j w (hl i j w (List.mem_cons_self _ _)) hinv

/-- C2 counterexample: from the empty graph, `add_vertex(0)` followed by
`add_edge(0, 0)` makes vertex 0 its own neighbour (`adjacent(0, 0)` is
true) on both graph variants, refuting the claimed no-self-loop invariant
for arbitrary call sequences. -/
theorem C2_counterexample :
    adjacentU (runUOps [UOp.addV 0 "user", UOp.addE 0 0]) 0 0 = true ∧
    adjacentW (runWOps [WOp.addV 0 "user", WOp.addE 0 0 1]) 0 0 = true := by decide

/-- C2 amended: in every state reachable by `add_vertex`/`add_edge` calls
in which every `add_edge` call has two distinct endpoints, no vertex is
its own neighbour (`adjacent(x, x)` is false and `x` is not among
`get_neighbours(x)`), on both graph variants; `add_edge(x, x)` itself
does create a self-loop (see the counterexample). -/
theorem C2_amended (opsU : List UOp) (opsW : List WOp)
    (hU : ∀ i j, UOp.addE i j ∈ opsU → i ≠ j)
    (hW : ∀ i j w, WOp.addE i j w ∈ opsW → i ≠ j) :
    (∀ x, adjacentU (runUOps opsU) x x = false ∧
      ∀ l, getNeighboursU? (runUOps opsU) x = some l → x ∉ l) ∧
    (∀ x, adjacentW (runWOps opsW) x x = false ∧
      ∀ l, getNeighboursW? (runWOps opsW) x = some l → x ∉ l) := by
  have hu := selfFreeU_runOps opsU hU
  have hw := selfFreeW_runOps opsW hW
  constructor
  · intro x
    constructor
    · unfold adjacentU
      split
      · exact decide_eq_false (hu x)
      · rfl
    · intro l hl
      rw [getNeighboursU_eq _ _ _ hl]
      exact hu x
  · intro x
    constructor
    · unfold adjacentW
      split
      · exact decide_eq_false (hw x)
      · rfl
    · intro l hl
      rw [getNeighboursW_eq _ _ _ hl]
      exact hw x

/-- C2 witness: the amended theorem applied to concrete call sequences
building a user–book edge. -/
theorem C2_witness :
    (∀ x, adjacentU (runUOps [UOp.addV 0 "user", UOp.addV 1 "book", UOp.addE 0 1]) x x
        = false ∧
      ∀ l, getNeighboursU? (runUOps [UOp.addV 0 "user", UOp.addV 1 "book", UOp.addE 0 1]) x
        = some l → x ∉ l) ∧
    (∀ x, adjacentW (runWOps [WOp.addV 0 "user", WOp.addV 1 "book", WOp.addE 0 1 5]) x x
        = false ∧
      ∀ l, getNeighboursW? (runWOps [WOp.addV 0 "user", WOp.addV 1 "book", WOp.addE 0 1 5]) x
        = some l → x ∉ l) :=
  C2_amended [UOp.addV 0 "user", UOp.addV 1 "book", UOp.addE 0 1]
    [WOp.addV 0 "user", WOp.addV 1 "book", WOp.addE 0 1 5]
    (by
      intro i j h
      simp only [List.mem_cons, List.mem_singleton] at h
      rcases h with h | h | h | h
      · exact UOp.noConfusion h
      · exact UOp.noConfusion h
      · injection h with h1 h2
        subst h1
        subst h2
        decide
      · exact absurd h (List.not_mem_nil _))
    (by
      intro i j w h
      simp only [List.mem_cons, List.mem_singleton] at h
      rcases h with h | h | h | h
      · exact WOp.noConfusion h
      · exact WOp.noConfusion h
      · injection h with h1 h2 h3
        subst h1
        subst h2
        decide
      · exact absurd h (List.not_mem_nil _))

/-! ## Claim C9: similarity symmetry and degree-0 policy -/

theorem jaccard_comm (a1 a2 : List Item) : jaccard a1 a2 = jaccard a2 a1 := by
  by_cases h1 : a1 = []
  · by_cases h2 : a2 = [] <;> simp [jaccard, h1, h2]
  · by_cases h2 : a2 = []
    · simp [jaccard, h1, h2]
    · unfold jaccard
      rw [if_neg (by tauto), if_neg (by tauto)]
      rw [Finset.inter_comm, Finset.union_comm]

theorem simUnweightedW_comm (a1 a2 : List (Item × ℚ)) :
    simUnweightedW a1 a2 = simUnweightedW a2 a1 := by
  by_cases h1 : a1 = []
  · by_cases h2 : a2 = [] <;> simp [simUnweightedW, h1, h2]
  · by_cases h2 : a2 = []
    · simp [simUnweightedW, h1, h2]
    · unfold simUnweightedW
      rw [if_neg (by tauto), if_neg (by tauto)]
      rw [Finset.inter_comm, Finset.union_comm]

theorem simStrictW_comm (a1 a2 : List (Item × ℚ)) :
    simStrictW a1 a2 = simStrictW a2 a1 := by
  by_cases h1 : a1 = []
  · by_cases h2 : a2 = [] <;> simp [simStrictW, h1, h2]
  · by_cases h2 : a2 = []
    · simp [simStrictW, h1, h2]
    · unfold simStrictW
      rw [if_neg (by tauto), if_neg (by tauto)]
      have hnum : (adjKeys a1).toFinset.filter
            (fun x => x ∈ (adjKeys a2).toFinset ∧ wOf a1 x = wOf a2 x) =
          (adjKeys a2).toFinset.filter
            (fun x => x ∈ (adjKeys a1).toFinset ∧ wOf a2 x = wOf a1 x) := by
        ext x
        simp only [Finset.mem_filter]
        constructor
        · rintro ⟨hx1, hx2, hw⟩
          exact ⟨hx2, hx1, hw.symm⟩
        · rintro ⟨hx1, hx2, hw⟩
          exact ⟨hx2, hx1, hw.symm⟩
      rw [hnum, Finset.union_comm]

theorem scoreOfW_comm (g : WGraph) (st : String) (a b : Item) :
    scoreOfW g st a b = scoreOfW g st b a := by
  unfold scoreOfW
  split
  · exact simUnweightedW_comm _ _
  · exact simStrictW_comm _ _

theorem scoreOfW_degree_zero (g : WGraph) (st : String) (a b : Item)
    (h : adjOfW g a = [] ∨ adjOfW g b = []) : scoreOfW g st a b = 0 := by
  unfold scoreOfW
  split
  · unfold simUnweightedW
    rw [if_pos h]
  · unfold simStrictW
    rw [if_pos h]

/-- C9: both similarity variants are symmetric in their two present
arguments, and return exactly 0 whenever either vertex has degree 0, on
the unweighted graph and (for every `score_type`) on the weighted graph. -/
theorem C9_theorem :
    (∀ (g : UGraph) (a b : Item), a ∈ keysU g → b ∈ keysU g →
      getSimilarityScoreU? g a b = getSimilarityScoreU? g b a ∧
      ((adjOfU g a).length = 0 ∨ (adjOfU g b).length = 0 →
        getSimilarityScoreU? g a b = some 0)) ∧
    (∀ (g : WGraph) (st : String) (a b : Item), a ∈ wKeys g → b ∈ wKeys g →
      getSimilarityScoreW? g a b st = getSimilarityScoreW? g b a st ∧
      ((adjOfW g a).length = 0 ∨ (adjOfW g b).length = 0 →
        getSimilarityScoreW? g a b st = some 0)) := by
  constructor
  · intro g a b ha hb
    constructor
    · unfold getSimilarityScoreU?
      rw [if_pos ⟨ha, hb⟩, if_pos ⟨hb, ha⟩, jaccard_comm]
    · intro hd
      unfold getSimilarityScoreU?
      rw [if_pos ⟨ha, hb⟩]
      have hz : adjOfU g a = [] ∨ adjOfU g b = [] := by
        rcases hd with h | h
        · exact Or.inl (List.length_eq_zero.1 h)
        · exact Or.inr (List.length_eq_zero.1 h)
      unfold jaccard
      rw [if_pos hz]
  · intro g st a b ha hb
    constructor
    · unfold getSimilarityScoreW?
      rw [if_pos ⟨ha, hb⟩, if_pos ⟨hb, ha⟩, scoreOfW_comm]
    · intro hd
      unfold getSimilarityScoreW?
      rw [if_pos ⟨ha, hb⟩]
      have hz : adjOfW g a = [] ∨ adjOfW g b = [] := by
        rcases hd with h | h
        · exact Or.inl (List.length_eq_zero.1 h)
        · exact Or.inr (List.length_eq_zero.1 h)
      rw [scoreOfW_degree_zero g st a b hz]

/-- C9 witness: the theorem applied to the doctest graph (users 0 and 1)
and to the weighted review graph (users 10 and 11, strict variant). -/
theorem C9_witness :
    ((0 : Item) ∈ keysU gDoc ∧ (1 : Item) ∈ keysU gDoc ∧
      (10 : Item) ∈ wKeys gRev ∧ (11 : Item) ∈ wKeys gRev) ∧
    (getSimilarityScoreU? gDoc 0 1 = getSimilarityScoreU? gDoc 1 0 ∧
      ((adjOfU gDoc 0).length = 0 ∨ (adjOfU gDoc 1).length = 0 →
        getSimilarityScoreU? gDoc 0 1 = some 0)) ∧
    (getSimilarityScoreW? gRev 10 11 "strict" = getSimilarityScoreW? gRev 11 10 "strict" ∧
      ((adjOfW gRev 10).length = 0 ∨ (adjOfW gRev 11).length = 0 →
        getSimilarityScoreW? gRev 10 11 "strict" = some 0)) :=
  ⟨⟨by decide, by decide, by decide, by decide⟩,
   C9_theorem.1 gDoc 0 1 (by decide) (by decide),
   C9_theorem.2 gRev "strict" 10 11 (by decide) (by decide)⟩

/-! ## Claim C6: strict similarity is at most unweighted similarity -/

theorem simStrictW_le_simUnweightedW (a1 a2 : List (Item × ℚ)) :
    simStrictW a1 a2 ≤ simUnweightedW a1 a2 := by
  unfold simStrictW simUnweightedW
  by_cases h : a1 = [] ∨ a2 = []
  · rw [if_pos h, if_pos h]
  · rw [if_neg h, if_neg h]
    apply div_le_div_of_nonneg_right
    · refine Nat.cast_le.2 (Finset.card_le_card ?_)
      intro x hx
      simp only [Finset.mem_filter] at hx
      exact Finset.mem_inter.2 ⟨hx.1, hx.2.1⟩
    · exact Nat.cast_nonneg _

/-- C6: on every weighted graph and every pair of present vertex keys, the
strict similarity score is at most the unweighted one. -/
theorem C6_theorem (g : WGraph) (a b : Item)
    (ha : a ∈ wKeys g) (hb : b ∈ wKeys g) :
    ∃ s u, getSimilarityScoreW? g a b "strict" = some s ∧
      getSimilarityScoreW? g a b "unweighted" = some u ∧ s ≤ u := by
  have h1 : getSimilarityScoreW? g a b "strict" = some (scoreOfW g "strict" a b) := by
    unfold getSimilarityScoreW?
    rw [if_pos ⟨ha, hb⟩]
  have h2 : getSimilarityScoreW? g a b "unweighted"
      = some (scoreOfW g "unweighted" a b) := by
    unfold getSimilarityScoreW?
    rw [if_pos ⟨ha, hb⟩]
  refine ⟨_, _, h1, h2, ?_⟩
  unfold scoreOfW
  rw [if_neg (by decide), if_pos rfl]
  exact simStrictW_le_simUnweightedW _ _

/-- C6 witness: the theorem applied to users 10 and 12 of the weighted
review graph. -/
theorem C6_witness :
    ((10 : Item) ∈ wKeys gRev ∧ (12 : Item) ∈ wKeys gRev) ∧
    ∃ s u, getSimilarityScoreW? gRev 10 12 "strict" = some s ∧
      getSimilarityScoreW? gRev 10 12 "unweighted" = some u ∧ s ≤ u :=
  ⟨⟨by decide, by decide⟩, C6_theorem gRev 10 12 (by decide) (by decide)⟩

/-! ## Claim C8: cross-cluster weight formula -/

theorem getWeightD_eq_wOf (g : WGraph) (u v : Item)
    (hu : u ∈ wKeys g) (hv : v ∈ wKeys g) :
    (getWeightW? g u v).getD 0 = wOf (adjOfW g u) v := by
  unfold getWeightW?
  rw [if_pos ⟨hu, hv⟩]
  rfl

/-- C8: for non-empty clusters of present keys, `cross_cluster_weight`
returns the sum of `get_weight(u, v)` over the product of the clusters
(missing edges contributing 0) divided by the product of the cluster
sizes; for singleton clusters it returns exactly the stored weight (or 0
when no edge exists). -/
theorem C8_theorem (g : WGraph) (A B : Finset Item)
    (hA : A.Nonempty) (hB : B.Nonempty)
    (hAk : ∀ u ∈ A, u ∈ wKeys g) (hBk : ∀ v ∈ B, v ∈ wKeys g) :
    crossClusterWeight? g A B =
      some ((∑ u ∈ A, ∑ v ∈ B, (getWeightW? g u v).getD 0) /
        ((A.card : ℚ) * (B.card : ℚ))) ∧
    (∀ a b : Item, a ∈ wKeys g → b ∈ wKeys g →
      crossClusterWeight? g {a} {b} = some ((getWeightW? g a b).getD 0)) := by
  constructor
  · unfold crossClusterWeight?
    rw [if_pos ⟨hA, hB, hAk, hBk⟩]
    unfold ccw
    congr 1
    congr 1
    refine Finset.sum_congr rfl (fun u hu => ?_)
    refine Finset.sum_congr rfl (fun v hv => ?_)
    rw [getWeightD_eq_wOf g u v (hAk u hu) (hBk v hv)]
  · intro a b hak hbk
    unfold crossClusterWeight?
    rw [if_pos ⟨Finset.singleton_nonempty a, Finset.singleton_nonempty b,
      by simpa using hak, by simpa using hbk⟩]
    unfold ccw
    rw [Finset.sum_singleton, Finset.sum_singleton, Finset.card_singleton,
      Finset.card_singleton, getWeightD_eq_wOf g a b hak hbk]
    norm_num

/-- C8 witness: the theorem applied to the singleton clusters {11, 12} and
{20} of the weighted review graph. -/
theorem C8_witness :
    (({11, 12} : Finset Item).Nonempty ∧ ({20} : Finset Item).Nonempty ∧
      (∀ u ∈ ({11, 12} : Finset Item), u ∈ wKeys gRev) ∧
      (∀ v ∈ ({20} : Finset Item), v ∈ wKeys gRev)) ∧
    (crossClusterWeight? gRev {11, 12} {20} =
      some ((∑ u ∈ ({11, 12} : Finset Item), ∑ v ∈ ({20} : Finset Item),
        (getWeightW? gRev u v).getD 0) /
        ((({11, 12} : Finset Item).card : ℚ) * (({20} : Finset Item).card : ℚ))) ∧
    (∀ a b : Item, a ∈ wKeys gRev → b ∈ wKeys gRev →
      crossClusterWeight? gRev {a} {b} = some ((getWeightW? gRev a b).getD 0))) :=
  ⟨⟨by decide, by decide, by decide, by decide⟩,
   C8_theorem gRev {11, 12} {20} (by decide) (by decide) (by decide) (by decide)⟩

/-! ## Claim C5: the similar-user prediction formula -/

theorem scoreOfW_nonneg (g : WGraph) (st : String) (a b : Item) :
    0 ≤ scoreOfW g st a b := by
  unfold scoreOfW
  split
  · unfold simUnweightedW
    split
    · exact le_refl 0
    · exact div_nonneg (Nat.cast_nonneg _) (Nat.cast_nonneg _)
  · unfold simStrictW
    split
    · exact le_refl 0
    · exact div_nonneg (Nat.cast_nonneg _) (Nat.cast_nonneg _)

theorem list_sum_eq_zero_iff_of_nonneg (l : List ℚ) (h : ∀ x ∈ l, 0 ≤ x) :
    l.sum = 0 ↔ ∀ x ∈ l, x = 0 := by
  induction l with
  | nil => simp
  | cons a t ih =>
    simp only [List.sum_cons, List.mem_cons]
    have ha : 0 ≤ a := h a (List.mem_cons_self a t)
    have ht : ∀ x ∈ t, 0 ≤ x := fun x hx => h x (List.mem_cons_of_mem a hx)
    have hts : 0 ≤ t.sum := List.sum_nonneg ht
    constructor
    · intro h0
      have ha0 : a = 0 := by linarith
      have hs0 : t.sum = 0 := by linarith
      intro x hx
      rcases hx with rfl | hx
      · exact ha0
      · exact (ih ht).1 hs0 x hx
    · intro hall
      have ha0 : a = 0 := hall a (Or.inl rfl)
      have hs0 : t.sum = 0 := (ih ht).2 (fun x hx => hall x (Or.inr hx))
      rw [ha0, hs0, add_zero]

theorem getAllVerticesW_subset (g : WGraph) (k : String) :
    ∀ u ∈ getAllVerticesW g k, u ∈ wKeys g := by
  intro u hu
  unfold getAllVerticesW at hu
  split at hu
  · obtain ⟨e, he, heq⟩ := List.mem_map.1 hu
    exact List.mem_map.2 ⟨e, List.mem_of_mem_filter he, heq⟩
  · exact hu

theorem predictFold (g : WGraph) (user book : Item)
    (hu : user ∈ wKeys g) (hb : book ∈ wKeys g) :
    ∀ (l : List Item), (∀ u ∈ l, u ∈ wKeys g) → ∀ (acc : ℚ × ℚ),
      (l.foldlM (fun (acc : ℚ × ℚ) u => do
          let w ← getWeightW? g u book
          if 0 < w then do
            let s ← getSimilarityScoreW? g user u "strict"
            pure (acc.1 + s * w, acc.2 + s)
          else pure acc) acc)
      = some (acc.1 + ((l.filter (fun u => decide (0 < wOf (adjOfW g u) book))).map
                (fun u => scoreOfW g "strict" user u * wOf (adjOfW g u) book)).sum,
              acc.2 + ((l.filter (fun u => decide (0 < wOf (adjOfW g u) book))).map
                (fun u => scoreOfW g "strict" user u)).sum) := by
  intro l
  induction l with
  | nil =>
    intro _ acc
    simp
  | cons u t ih =>
    intro hl acc
    rw [List.foldlM_cons]
    have hw : getWeightW? g u book = some (wOf (adjOfW g u) book) := by
      unfold getWeightW?
      rw [if_pos ⟨hl u (List.mem_cons_self _ _), hb⟩]
    have hrest := ih (fun x hx => hl x (List.mem_cons_of_mem _ hx))
    by_cases hpos : 0 < wOf (adjOfW g u) book
    · have hs : getSimilarityScoreW? g user u "strict"
          = some (scoreOfW g "strict" user u) := by
        unfold getSimilarityScoreW?
        rw [if_pos ⟨hu, hl u (List.mem_cons_self _ _)⟩]
      have hfil : List.filter (fun u => decide (0 < wOf (adjOfW g u) book)) (u :: t)
          = u :: List.filter (fun u => decide (0 < wOf (adjOfW g u) book)) t :=
        List.filter_cons_of_pos (by simpa using hpos)
      rw [hfil]
      simp only [List.map_cons, List.sum_cons]
      rw [hw]
      simp only [Option.bind_eq_bind, Option.some_bind]
      rw [if_pos hpos, hs]
      simp only [Option.bind_eq_bind, Option.some_bind, Option.pure_def]
      simp only [Option.bind_eq_bind, Option.pure_def] at hrest
      rw [hrest]
      simp only [Option.some_inj, Prod.mk.injEq]
      constructor <;> ring
    · have hfil : List.filter (fun u => decide (0 < wOf (adjOfW g u) book)) (u :: t)
          = List.filter (fun u => decide (0 < wOf (adjOfW g u) book)) t :=
        List.filter_cons_of_neg (by simpa using hpos)
      rw [hfil]
      rw [hw]
      simp only [Option.bind_eq_bind, Option.some_bind]
      rw [if_neg hpos]
      simp only [Option.pure_def, Option.some_bind]
      simp only [Option.bind_eq_bind, Option.pure_def] at hrest
      exact hrest _

/-- C5 counterexample: on the review graph `gRev`, for the non-adjacent
pair (user 10, book 20), the code returns 4 but the claim's formula —
averaging over every other user *with an edge to the book* (user 11 has
an edge of weight 0, user 12 one of weight 4, both with strict
similarity 1/2 to user 10) — yields round((1/2·0 + 1/2·4)/(1/2 + 1/2)) = 2:
the code instead restricts to users whose weight is strictly positive. -/
theorem C5_counterexample :
    adjacentW gRev 10 20 = false ∧
    predictSimilarUser gRev "strict" 10 20 = some 4 ∧
    specSimilarPrediction gRev 10 20 = some 2 ∧
    (some (4 : ℚ) ≠ some (2 : ℚ)) := by decide

/-- C5 amended: for present, non-adjacent (user, book), the similar-user
prediction averages over every user whose edge weight to the book is
strictly positive (not every user with an edge): it returns the rounded
sum of strict-similarity × weight over the sum of strict similarities,
regardless of the constructed score_type; when that total similarity is
zero it returns the book's rounded average weight, an expression which
itself fails when the book has no edges. -/
theorem C5_amended (g : WGraph) (st : String) (user book : Item)
    (hu : user ∈ wKeys g) (hb : book ∈ wKeys g)
    (hadj : adjacentW g user book = false) :
    predictSimilarUser g st user book =
      (if (((getAllVerticesW g "user").filter
            (fun u => decide (0 < wOf (adjOfW g u) book))).map
            (fun u => scoreOfW g "strict" user u)).sum = 0
       then (averageWeightW? g book).map (fun a => (pyRound a : ℚ))
       else some ((pyRound
         ((((getAllVerticesW g "user").filter
             (fun u => decide (0 < wOf (adjOfW g u) book))).map
             (fun u => scoreOfW g "strict" user u * wOf (adjOfW g u) book)).sum /
          (((getAllVerticesW g "user").filter
             (fun u => decide (0 < wOf (adjOfW g u) book))).map
             (fun u => scoreOfW g "strict" user u)).sum) : ℚ))) := by
  unfold predictSimilarUser
  rw [hadj]
  simp only [Bool.false_eq_true, if_false]
  rw [predictFold g user book hu hb (getAllVerticesW g "user")
    (getAllVerticesW_subset g "user") (0, 0)]
  simp only [zero_add, Option.bind_eq_bind, Option.some_bind]
  set R := (getAllVerticesW g "user").filter
    (fun u => decide (0 < wOf (adjOfW g u) book)) with hR
  set N := (R.map (fun u => scoreOfW g "strict" user u * wOf (adjOfW g u) book)).sum
    with hN
  set S := (R.map (fun u => scoreOfW g "strict" user u)).sum with hS
  have hwpos : ∀ u ∈ R, 0 < wOf (adjOfW g u) book := by
    intro u huR
    have := List.of_mem_filter huR
    simpa using this
  have hNS : N = 0 ↔ S = 0 := by
    rw [hN, hS]
    rw [list_sum_eq_zero_iff_of_nonneg _ (by
      intro x hx
      obtain ⟨u, huR, rfl⟩ := List.mem_map.1 hx
      exact mul_nonneg (scoreOfW_nonneg g "strict" user u) (le_of_lt (hwpos u huR)))]
    rw [list_sum_eq_zero_iff_of_nonneg _ (by
      intro x hx
      obtain ⟨u, huR, rfl⟩ := List.mem_map.1 hx
      exact scoreOfW_nonneg g "strict" user u)]
    constructor
    · intro h x hx
      obtain ⟨u, huR, rfl⟩ := List.mem_map.1 hx
      have := h _ (List.mem_map.2 ⟨u, huR, rfl⟩)
      rcases mul_eq_zero.1 this with h0 | h0
      · exact h0
      · exact absurd h0 (ne_of_gt (hwpos u huR))
    · intro h x hx
      obtain ⟨u, huR, rfl⟩ := List.mem_map.1 hx
      rw [h _ (List.mem_map.2 ⟨u, huR, rfl⟩), zero_mul]
  by_cases hSz : S = 0
  · rw [if_pos (hNS.2 hSz), if_pos hSz]
  · rw [if_neg (fun hNz => hSz (hNS.1 hNz)), if_neg hSz]

/-- C5 witness: the amended theorem applied to user 10 and book 20 of the
review graph. -/
theorem C5_witness :
    ((10 : Item) ∈ wKeys gRev ∧ (20 : Item) ∈ wKeys gRev ∧
      adjacentW gRev 10 20 = false) ∧
    predictSimilarUser gRev "strict" 10 20 =
      (if (((getAllVerticesW gRev "user").filter
            (fun u => decide (0 < wOf (adjOfW gRev u) 20))).map
            (fun u => scoreOfW gRev "strict" 10 u)).sum = 0
       then (averageWeightW? gRev 20).map (fun a => (pyRound a : ℚ))
       else some ((pyRound
         ((((getAllVerticesW gRev "user").filter
             (fun u => decide (0 < wOf (adjOfW gRev u) 20))).map
             (fun u => scoreOfW gRev "strict" 10 u * wOf (adjOfW gRev u) 20)).sum /
          (((getAllVerticesW gRev "user").filter
             (fun u => decide (0 < wOf (adjOfW gRev u) 20))).map
             (fun u => scoreOfW gRev "strict" 10 u)).sum) : ℚ))) :=
  ⟨⟨by decide, by decide, by decide⟩,
   C5_amended gRev "strict" 10 20 (by decide) (by decide) (by decide)⟩

/-! ## Claim C1: recommend_books and duplicates -/

theorem insertDescQ_perm (x : ℚ) (l : List ℚ) : (insertDescQ x l).Perm (x :: l) := by
  induction l with
  | nil => exact List.Perm.refl _
  | cons y ys ih =>
    unfold insertDescQ
    split
    · exact ((ih.cons y).trans (List.Perm.swap x y ys))
    · exact List.Perm.refl _

theorem pySortDesc_perm (l : List ℚ) : (pySortDesc l).Perm l := by
  suffices h : ∀ (l : List ℚ) (acc : List ℚ),
      (l.foldl (fun a x => insertDescQ x a) acc).Perm (acc ++ l) by
    simpa using h l []
  intro l
  induction l with
  | nil => intro acc; simp
  | cons x xs ih =>
    intro acc
    rw [List.foldl_cons]
    refine ((ih (insertDescQ x acc)).trans ?_)
    refine (List.Perm.append_right xs (insertDescQ_perm x acc)).trans ?_
    exact (@List.perm_middle _ x acc xs).symm

theorem count_filter_eq (p : Item → Bool) (x : Item) (l : List Item) :
    (l.filter p).count x = if p x = true then l.count x else 0 := by
  by_cases h : p x = true
  · rw [if_pos h]
    exact List.count_filter h
  · rw [if_neg h]
    refine List.count_eq_zero.2 ?_
    intro hmem
    exact h (List.of_mem_filter hmem)

theorem count_gather (score : Item → ℚ) (base : List Item) (x : Item) :
    ∀ (scores : List ℚ),
      ((scores.flatMap (fun s => base.filter (fun v => decide (score v = s)))).count x)
        = (scores.count (score x)) * (base.count x) := by
  intro scores
  induction scores with
  | nil => simp
  | cons s rest ih =>
    rw [List.flatMap_cons, List.count_append, ih, count_filter_eq, List.count_cons]
    by_cases h : score x = s
    · rw [if_pos (by simpa using h), if_pos (by simpa using h.symm)]
      ring
    · rw [if_neg (by simpa using h), if_neg (by simpa using fun he => h he.symm)]
      ring

theorem gathered_nodup (allB : List Item) (book : Item) (score : Item → ℚ)
    (hnd : allB.Nodup)
    (hdist : ∀ v1 ∈ allB.filter (fun v => decide (v ≠ book)),
             ∀ v2 ∈ allB.filter (fun v => decide (v ≠ book)),
               v1 ≠ v2 → score v1 ≠ score v2) :
    ((pySortDesc ((allB.filter (fun v => decide (v ≠ book))).map score)).flatMap
      (fun s => allB.filter (fun v => decide (v ≠ book ∧ score v = s)))).Nodup := by
  have hsplit : (fun s : ℚ => allB.filter (fun v => decide (v ≠ book ∧ score v = s)))
      = fun s => (allB.filter (fun v => decide (v ≠ book))).filter
          (fun v => decide (score v = s)) := by
    funext s
    rw [List.filter_filter]
    congr 1
    funext v
    by_cases h1 : v = book <;> by_cases h2 : score v = s <;> simp [h1, h2]
  rw [hsplit]
  set others := allB.filter (fun v => decide (v ≠ book)) with hO
  have hond : others.Nodup := hnd.filter _
  rw [List.nodup_iff_count_le_one]
  intro x
  rw [count_gather, (pySortDesc_perm (others.map score)).count_eq]
  by_cases hx : x ∈ others
  · have h1 : (others.map score).count (score x) = 1 := by
      rw [List.count_eq_countP, List.countP_map]
      have hcong : List.countP ((fun q => q == score x) ∘ score) others
          = List.countP (fun v => v == x) others := by
        refine List.countP_congr ?_
        intro v hv
        simp only [Function.comp_apply, beq_iff_eq]
        constructor
        · intro he
          by_contra hne
          exact hdist v hv x hx hne he
        · intro he
          rw [he]
      rw [hcong, ← List.count_eq_countP]
      exact List.count_eq_one_of_mem hond hx
    have h2 : others.count x = 1 := List.count_eq_one_of_mem hond hx
    rw [h1, h2]
  · rw [List.count_eq_zero.2 hx, Nat.mul_zero]
    exact Nat.zero_le 1

theorem getAllVerticesU_nodup (g : UGraph) (k : String) (hnd : (keysU g).Nodup) :
    (getAllVerticesU g k).Nodup := by
  unfold getAllVerticesU
  split
  · exact hnd.sublist ((List.filter_sublist _).map _)
  · exact hnd

theorem getAllVerticesW_nodup (g : WGraph) (k : String) (hnd : (wKeys g).Nodup) :
    (getAllVerticesW g k).Nodup := by
  unfold getAllVerticesW
  split
  · exact hnd.sublist ((List.filter_sublist _).map _)
  · exact hnd

/-- C1 counterexample: in a graph with three mutually tieing books (all
similarity scores 0), `recommend_books(1, 4)` returns `[2, 3, 2, 3]`, a
list with duplicate entries, even though book 1 is present. -/
theorem C1_counterexample :
    (1 : Item) ∈ keysU gDup ∧
    recommendBooksU? gDup 1 4 = some [2, 3, 2, 3] ∧
    ¬ ([2, 3, 2, 3] : List Item).Nodup := by decide

/-- C1 amended: `recommend_books` returns a duplicate-free list — for
every book and limit, on both graph variants — provided the similarity
scores of the other book vertices to the query book are pairwise
distinct (tied scores make each tied book appear once per tied score
entry, see the counterexample). -/
theorem C1_amended :
    (∀ (g : UGraph) (book : Item) (limit : ℕ) (l : List Item),
      (keysU g).Nodup →
      (∀ v1 ∈ (getAllVerticesU g "book").filter (fun v => v ≠ book),
       ∀ v2 ∈ (getAllVerticesU g "book").filter (fun v => v ≠ book),
        v1 ≠ v2 → jaccard (adjOfU g book) (adjOfU g v1)
          ≠ jaccard (adjOfU g book) (adjOfU g v2)) →
      recommendBooksU? g book limit = some l → l.Nodup) ∧
    (∀ (g : WGraph) (st : String) (book : Item) (limit : ℕ) (l : List Item),
      (wKeys g).Nodup →
      (∀ v1 ∈ (getAllVerticesW g "book").filter (fun v => v ≠ book),
       ∀ v2 ∈ (getAllVerticesW g "book").filter (fun v => v ≠ book),
        v1 ≠ v2 → scoreOfW g st book v1 ≠ scoreOfW g st book v2) →
      recommendBooksW? g book limit st = some l → l.Nodup) := by
  constructor
  · intro g book limit l hnd hdist hres
    unfold recommendBooksU? at hres
    dsimp only at hres
    split at hres
    · exact absurd hres (by simp)
    · rw [Option.some_inj] at hres
      have hg := gathered_nodup (getAllVerticesU g "book") book
        (fun v => jaccard (adjOfU g book) (adjOfU g v))
        (getAllVerticesU_nodup g "book" hnd) hdist
      rw [← hres] at *
      split
      · exact hg
      · exact hg.sublist (List.take_sublist _ _)
  · intro g st book limit l hnd hdist hres
    unfold recommendBooksW? at hres
    dsimp only at hres
    split at hres
    · exact absurd hres (by simp)
    · rw [Option.some_inj] at hres
      have hg := gathered_nodup (getAllVerticesW g "book") book
        (fun v => scoreOfW g st book v)
        (getAllVerticesW_nodup g "book" hnd) hdist
      rw [← hres] at *
      split
      · exact hg
      · exact hg.sublist (List.take_sublist _ _)

/-- C1 witness: the amended theorem applied to `gBooks`/`gBooksW`, where
the two other books score 1 and 1/2 against book 1, and the computed
recommendation `[2, 3]` is duplicate-free. -/
theorem C1_witness :
    ((keysU gBooks).Nodup ∧ (wKeys gBooksW).Nodup ∧
      recommendBooksU? gBooks 1 5 = some [2, 3] ∧
      recommendBooksW? gBooksW 1 5 "unweighted" = some [2, 3]) ∧
    ([2, 3] : List Item).Nodup ∧ ([2, 3] : List Item).Nodup :=
  ⟨⟨by decide, by decide, by decide, by decide⟩,
   C1_amended.1 gBooks 1 5 [2, 3] (by decide) (by decide) (by decide),
   C1_amended.2 gBooksW "unweighted" 1 5 [2, 3] (by decide) (by decide) (by decide)⟩

/-! ## Claim C4: clustering partitions -/

theorem wOf_nonneg (g : WGraph) (hw : NonnegWeights g) (u v : Item) :
    0 ≤ wOf (adjOfW g u) v := by
  have hadj : ∀ p ∈ adjOfW g u, (0 : ℚ) ≤ p.2 := by
    intro p hp
    unfold adjOfW lookupVertW at hp
    cases hfind : g.verts.find? (fun e => e.1 = u) with
    | none => rw [hfind] at hp; simp at hp
    | some e =>
      rw [hfind] at hp
      simp at hp
      exact hw e (List.mem_of_find?_eq_some hfind) p hp
  unfold wOf
  cases hfw : (adjOfW g u).find? (fun p => p.1 = v) with
  | none => simp
  | some p => simpa using hadj p (List.mem_of_find?_eq_some hfw)

theorem ccw_nonneg (g : WGraph) (hw : NonnegWeights g) (c1 c2 : Finset Item) :
    0 ≤ ccw g c1 c2 := by
  unfold ccw
  refine div_nonneg ?_ ?_
  · refine Finset.sum_nonneg fun u _ => ?_
    exact Finset.sum_nonneg fun v _ => wOf_nonneg g hw u v
  · exact mul_nonneg (Nat.cast_nonneg _) (Nat.cast_nonneg _)

theorem set_perm_cons_eraseIdx {α : Type} :
    ∀ (l : List α) (j : ℕ) (v : α), j < l.length →
      (l.set j v).Perm (v :: l.eraseIdx j) := by
  intro l
  induction l with
  | nil => intro j v hj; exact absurd hj (by simp)
  | cons a t ih =>
    intro j v hj
    cases j with
    | zero => exact List.Perm.refl _
    | succ n =>
      show (a :: t.set n v).Perm (v :: a :: t.eraseIdx n)
      exact ((ih n v (by simpa using hj)).cons a).trans (List.Perm.swap v a _)

theorem getElem_cons_eraseIdx_perm {α : Type} :
    ∀ (l : List α) (j : ℕ) (hj : j < l.length),
      l.Perm (l[j] :: l.eraseIdx j) := by
  intro l
  induction l with
  | nil => intro j hj; exact absurd hj (by simp)
  | cons a t ih =>
    intro j hj
    cases j with
    | zero => exact List.Perm.refl _
    | succ n =>
      have hn : n < t.length := by simpa using hj
      show (a :: t).Perm (t[n] :: a :: t.eraseIdx n)
      exact ((ih n hn).cons a).trans (List.Perm.swap _ a _)

theorem unionOf_cons (a : Finset Item) (l : List (Finset Item)) :
    unionOf (a :: l) = a ∪ unionOf l := rfl

theorem unionOf_perm {l1 l2 : List (Finset Item)} (h : l1.Perm l2) :
    unionOf l1 = unionOf l2 := by
  induction h with
  | nil => rfl
  | cons x _ ih => rw [unionOf_cons, unionOf_cons, ih]
  | swap x y l =>
    rw [unionOf_cons, unionOf_cons, unionOf_cons, unionOf_cons]
    rw [← Finset.union_assoc, Finset.union_comm y x, Finset.union_assoc]
  | trans _ _ ih1 ih2 => rw [ih1, ih2]

theorem getD_of_lt {α : Type} (l : List α) (i : ℕ) (d : α) (h : i < l.length) :
    l.getD i d = l[i] := by
  rw [List.getD_eq_getElem?_getD, List.getElem?_eq_getElem h]
  rfl

theorem merge_step (cl : List (Finset Item)) (j k : ℕ) (M : List (Finset Item))
    (hj : j < cl.length) (hk : k < cl.length) (hjk : j ≠ k)
    (hne : ∀ c ∈ cl, c.Nonempty)
    (hpw : List.Pairwise (fun a b => Disjoint a b) cl)
    (hM : M = (cl.set j (cl.getD j ∅ ∪ cl.getD k ∅)).erase (cl.getD k ∅)) :
    (∀ c ∈ M, c.Nonempty) ∧ List.Pairwise (fun a b => Disjoint a b) M ∧
      unionOf M = unionOf cl ∧ M.length = cl.length - 1 := by
  rw [getD_of_lt cl j ∅ hj, getD_of_lt cl k ∅ hk] at hM
  set c1 := cl[k] with hc1
  set c2 := cl[j] with hc2
  set v := c2 ∪ c1 with hv
  have hc2ne : c2.Nonempty := hne c2 (List.getElem_mem hj)
  have hc1ne : c1.Nonempty := hne c1 (List.getElem_mem hk)
  have hdisj : Disjoint c1 c2 := by
    rcases Nat.lt_or_ge k j with hlt | hge
    · exact List.pairwise_iff_get.1 hpw ⟨k, hk⟩ ⟨j, hj⟩ hlt
    · have hlt2 : j < k := by omega
      exact (List.pairwise_iff_get.1 hpw ⟨j, hj⟩ ⟨k, hk⟩ hlt2).symm
  have hvne : c1 ≠ v := by
    intro he
    have hsub : c2 ⊆ c1 := by
      intro x hx
      rw [he, hv]
      exact Finset.mem_union_left c1 hx
    obtain ⟨x, hx⟩ := hc2ne
    exact (Finset.disjoint_right.1 hdisj hx) (hsub hx)
  have hc1mem : c1 ∈ cl.set j v := by
    have hk2 : k < (cl.set j v).length := by rw [List.length_set]; exact hk
    have hgl : (cl.set j v)[k] = c1 := List.getElem_set_ne hjk hk2
    exact hgl ▸ List.getElem_mem hk2
  have permE : (cl.set j v).Perm (c1 :: (cl.set j v).erase c1) :=
    List.perm_cons_erase hc1mem
  have permA : (cl.set j v).Perm (v :: cl.eraseIdx j) :=
    set_perm_cons_eraseIdx cl j v hj
  have key : (c1 :: (cl.set j v).erase c1).Perm (v :: cl.eraseIdx j) :=
    permE.symm.trans permA
  have hc1R : c1 ∈ cl.eraseIdx j := by
    have hmm : c1 ∈ v :: cl.eraseIdx j := key.mem_iff.1 (List.mem_cons_self _ _)
    rcases List.mem_cons.1 hmm with he | hm
    · exact absurd he hvne
    · exact hm
  have permR : (cl.eraseIdx j).Perm (c1 :: (cl.eraseIdx j).erase c1) :=
    List.perm_cons_erase hc1R
  set S := (cl.eraseIdx j).erase c1 with hS
  have permM : ((cl.set j v).erase c1).Perm (v :: S) := by
    have h1 : (c1 :: (cl.set j v).erase c1).Perm (c1 :: v :: S) :=
      key.trans ((permR.cons v).trans (List.Perm.swap c1 v S))
    exact h1.cons_inv
  have permCl : cl.Perm (c2 :: c1 :: S) :=
    (getElem_cons_eraseIdx_perm cl j hj).trans (permR.cons c2)
  subst hM
  refine ⟨?_, ?_, ?_, ?_⟩
  · intro c hc
    rcases List.mem_cons.1 (permM.mem_iff.1 hc) with he | hm
    · rw [he, hv]
      exact hc2ne.mono Finset.subset_union_left
    · refine hne c ?_
      have h1 : c ∈ cl.eraseIdx j := List.mem_of_mem_erase hm
      exact (List.eraseIdx_sublist cl j).mem h1
  · have hsymm : ∀ {x y : Finset Item}, Disjoint x y → Disjoint y x :=
      fun h => h.symm
    have hcl2 : List.Pairwise (fun a b => Disjoint a b) (c2 :: c1 :: S) :=
      (permCl.pairwise_iff hsymm).1 hpw
    have h2 := List.pairwise_cons.1 hcl2
    have h1 := List.pairwise_cons.1 h2.2
    refine (permM.pairwise_iff hsymm).2 (List.pairwise_cons.2 ⟨?_, h1.2⟩)
    intro b hb
    rw [hv]
    exact Finset.disjoint_union_left.2
      ⟨h2.1 b (List.mem_cons_of_mem _ hb), h1.1 b hb⟩
  · rw [unionOf_perm permM, unionOf_perm permCl]
    rw [unionOf_cons, unionOf_cons, unionOf_cons, hv]
    rw [Finset.union_assoc]
  · have hL1 := permM.length_eq
    have hL2 := permCl.length_eq
    simp only [List.length_cons] at hL1 hL2
    omega

theorem bestPartner_fold (g : WGraph) (cl : List (Finset Item)) (k : ℕ) (c1 : Finset Item)
    (hw : NonnegWeights g) :
    ∀ (l : List ℕ) (acc : ℚ × Option ℕ),
      (∀ j2, acc.2 = some j2 → j2 < cl.length ∧ j2 ≠ k) →
      (acc.2 = none → acc.1 = -1) →
      (∀ j2 ∈ l, j2 < cl.length) →
      ∀ res, res = l.foldl (fun acc j =>
          if j ≠ k then
            let score := ccw g c1 (cl.getD j ∅)
            if acc.1 < score then (score, some j) else acc
          else acc) acc →
      (∀ j2, res.2 = some j2 → j2 < cl.length ∧ j2 ≠ k) ∧
      ((∃ j2 ∈ l, j2 ≠ k) ∨ acc.2.isSome = true → res.2.isSome = true) := by
  intro l
  induction l with
  | nil =>
    intro acc hP hQ _ res hres
    rw [List.foldl_nil] at hres
    subst hres
    constructor
    · exact hP
    · rintro (⟨j2, hj2, _⟩ | hsome)
      · exact absurd hj2 (List.not_mem_nil j2)
      · exact hsome
  | cons a t ih =>
    intro acc hP hQ hl res hres
    rw [List.foldl_cons] at hres
    by_cases hak : a ≠ k
    · rw [if_pos hak] at hres
      dsimp only at hres
      by_cases hup : acc.1 < ccw g c1 (cl.getD a ∅)
      · rw [if_pos hup] at hres
        have hnew := ih (ccw g c1 (cl.getD a ∅), some a)
          (by
            intro j2 h
            rw [Option.some_inj] at h
            subst h
            exact ⟨hl a (List.mem_cons_self a t), hak⟩)
          (by intro h; exact absurd h (by simp))
          (fun j2 h => hl j2 (List.mem_cons_of_mem _ h)) res hres
        exact ⟨hnew.1, fun _ => hnew.2 (Or.inr rfl)⟩
      · rw [if_neg hup] at hres
        have hsome : acc.2.isSome = true := by
          cases hacc : acc.2 with
          | some _ => rfl
          | none =>
            have h1 : acc.1 = -1 := hQ hacc
            have h2 : 0 ≤ ccw g c1 (cl.getD a ∅) := ccw_nonneg g hw c1 _
            rw [h1] at hup
            exact absurd (lt_of_lt_of_le (by norm_num) h2) hup
        have hnew := ih acc hP hQ (fun j2 h => hl j2 (List.mem_cons_of_mem _ h)) res hres
        exact ⟨hnew.1, fun _ => hnew.2 (Or.inr hsome)⟩
    · rw [if_neg hak] at hres
      have hak2 : a = k := not_not.1 hak
      have hnew := ih acc hP hQ (fun j2 h => hl j2 (List.mem_cons_of_mem _ h)) res hres
      refine ⟨hnew.1, ?_⟩
      rintro (⟨j2, hj2mem, hj2k⟩ | hsome)
      · rcases List.mem_cons.1 hj2mem with rfl | hmem
        · exact absurd hak2 hj2k
        · exact hnew.2 (Or.inl ⟨j2, hmem, hj2k⟩)
      · exact hnew.2 (Or.inr hsome)

theorem bestPartner_some (g : WGraph) (cl : List (Finset Item)) (k : ℕ) (c1 : Finset Item)
    (hw : NonnegWeights g) (hlen : 2 ≤ cl.length) (_hk : k < cl.length) :
    ∃ j, (bestPartner g cl k c1).2 = some j ∧ j < cl.length ∧ j ≠ k := by
  unfold bestPartner
  have hfold := bestPartner_fold g cl k c1 hw (List.range cl.length) (-1, none)
    (by intro j2 h; exact absurd h (by simp))
    (fun _ => rfl)
    (by intro j2 h; exact List.mem_range.1 h)
    _ rfl
  have hex : ∃ j2 ∈ List.range cl.length, j2 ≠ k := by
    by_cases hk0 : k = 0
    · exact ⟨1, List.mem_range.2 (by omega), by omega⟩
    · exact ⟨0, List.mem_range.2 (by omega), by omega⟩
  have hsome := hfold.2 (Or.inl hex)
  obtain ⟨j, hj⟩ := Option.isSome_iff_exists.1 hsome
  exact ⟨j, hj, (hfold.1 j hj).1, (hfold.1 j hj).2⟩

theorem randStep_spec (g : WGraph) (hw : NonnegWeights g) (cl : List (Finset Item))
    (p : ℕ) (hlen : 2 ≤ cl.length) (hne : ∀ c ∈ cl, c.Nonempty)
    (hpw : List.Pairwise (fun a b => Disjoint a b) cl) :
    ∃ M, randStep g cl p = some M ∧ (∀ c ∈ M, c.Nonempty) ∧
      List.Pairwise (fun a b => Disjoint a b) M ∧
      unionOf M = unionOf cl ∧ M.length = cl.length - 1 := by
  have hnil : cl.isEmpty = false := by
    cases cl with
    | nil => simp at hlen
    | cons a t => rfl
  have hk : p % cl.length < cl.length := Nat.mod_lt _ (by omega)
  obtain ⟨j, hbp, hjlt, hjk⟩ :=
    bestPartner_some g cl (p % cl.length) (cl.getD (p % cl.length) ∅) hw hlen hk
  unfold randStep
  rw [hnil]
  simp only [Bool.false_eq_true, if_false]
  rw [hbp]
  exact ⟨_, rfl, merge_step cl j (p % cl.length) _ hjlt hk hjk hne hpw rfl⟩

theorem greedyInner_fold (g : WGraph) (cl : List (Finset Item)) (hw : NonnegWeights g)
    (i1 : ℕ) :
    ∀ (l : List ℕ) (acc : ℚ × Option (ℕ × ℕ)),
      (∀ q, acc.2 = some q → q.1 < q.2 ∧ q.2 < cl.length) →
      (acc.2 = none → acc.1 = -1) →
      (∀ i2 ∈ l, i1 < i2 ∧ i2 < cl.length) →
      ∀ res, res = l.foldl (fun acc2 i2 =>
          let score := ccw g (cl.getD i1 ∅) (cl.getD i2 ∅)
          if acc2.1 < score then (score, some (i1, i2)) else acc2) acc →
      (∀ q, res.2 = some q → q.1 < q.2 ∧ q.2 < cl.length) ∧
      (res.2 = none → res.1 = -1) ∧
      (l ≠ [] ∨ acc.2.isSome = true → res.2.isSome = true) := by
  intro l
  induction l with
  | nil =>
    intro acc hP hQ _ res hres
    rw [List.foldl_nil] at hres
    subst hres
    refine ⟨hP, hQ, ?_⟩
    rintro (hnil | hsome)
    · exact absurd rfl hnil
    · exact hsome
  | cons a t ih =>
    intro acc hP hQ hl res hres
    rw [List.foldl_cons] at hres
    dsimp only at hres
    by_cases hup : acc.1 < ccw g (cl.getD i1 ∅) (cl.getD a ∅)
    · rw [if_pos hup] at hres
      have hnew := ih (ccw g (cl.getD i1 ∅) (cl.getD a ∅), some (i1, a))
        (by
          intro q h
          rw [Option.some_inj] at h
          subst h
          exact ⟨(hl a (List.mem_cons_self a t)).1, (hl a (List.mem_cons_self a t)).2⟩)
        (by intro h; exact absurd h (by simp))
        (fun i2 h => hl i2 (List.mem_cons_of_mem _ h)) res hres
      exact ⟨hnew.1, hnew.2.1, fun _ => hnew.2.2 (Or.inr rfl)⟩
    · rw [if_neg hup] at hres
      have hsome : acc.2.isSome = true := by
        cases hacc : acc.2 with
        | some _ => rfl
        | none =>
          have h1 : acc.1 = -1 := hQ hacc
          have h2 : 0 ≤ ccw g (cl.getD i1 ∅) (cl.getD a ∅) := ccw_nonneg g hw _ _
          rw [h1] at hup
          exact absurd (lt_of_lt_of_le (by norm_num) h2) hup
      have hnew := ih acc hP hQ (fun i2 h => hl i2 (List.mem_cons_of_mem _ h)) res hres
      exact ⟨hnew.1, hnew.2.1, fun _ => hnew.2.2 (Or.inr hsome)⟩

theorem greedyOuter_fold (g : WGraph) (cl : List (Finset Item)) (hw : NonnegWeights g) :
    ∀ (l : List ℕ) (acc : ℚ × Option (ℕ × ℕ)),
      (∀ q, acc.2 = some q → q.1 < q.2 ∧ q.2 < cl.length) →
      (acc.2 = none → acc.1 = -1) →
      ∀ res, res = l.foldl (fun acc i1 =>
          (List.range' (i1 + 1) (cl.length - (i1 + 1))).foldl
            (fun acc2 i2 =>
              let score := ccw g (cl.getD i1 ∅) (cl.getD i2 ∅)
              if acc2.1 < score then (score, some (i1, i2)) else acc2) acc) acc →
      (∀ q, res.2 = some q → q.1 < q.2 ∧ q.2 < cl.length) ∧
      (res.2 = none → res.1 = -1) ∧
      ((∃ i1 ∈ l, i1 + 1 < cl.length) ∨ acc.2.isSome = true → res.2.isSome = true) := by
  intro l
  induction l with
  | nil =>
    intro acc hP hQ res hres
    rw [List.foldl_nil] at hres
    subst hres
    refine ⟨hP, hQ, ?_⟩
    rintro (⟨i1, hmem, _⟩ | hsome)
    · exact absurd hmem (List.not_mem_nil i1)
    · exact hsome
  | cons a t ih =>
    intro acc hP hQ res hres
    rw [List.foldl_cons] at hres
    have hlInner : ∀ i2 ∈ List.range' (a + 1) (cl.length - (a + 1)),
        a < i2 ∧ i2 < cl.length := by
      intro i2 h
      have := List.mem_range'_1.1 h
      omega
    have hinner := greedyInner_fold g cl hw a
      (List.range' (a + 1) (cl.length - (a + 1))) acc hP hQ hlInner _ rfl
    have hnew := ih ((List.range' (a + 1) (cl.length - (a + 1))).foldl
        (fun acc2 i2 =>
          let score := ccw g (cl.getD a ∅) (cl.getD i2 ∅)
          if acc2.1 < score then (score, some (a, i2)) else acc2) acc)
      hinner.1 hinner.2.1 res hres
    refine ⟨hnew.1, hnew.2.1, ?_⟩
    rintro (⟨i1, hmem, hlt⟩ | hsome)
    · rcases List.mem_cons.1 hmem with rfl | hmemt
      · refine hnew.2.2 (Or.inr (hinner.2.2 (Or.inl ?_)))
        have hpos : 0 < cl.length - (i1 + 1) := by omega
        intro hemp
        have := congrArg List.length hemp
        rw [List.length_range'] at this
        simp at this
        omega
      · exact hnew.2.2 (Or.inl ⟨i1, hmemt, hlt⟩)
    · exact hnew.2.2 (Or.inr (hinner.2.2 (Or.inr hsome)))

theorem bestPairGreedy_some (g : WGraph) (cl : List (Finset Item))
    (hw : NonnegWeights g) (hlen : 2 ≤ cl.length) :
    ∃ q : ℕ × ℕ, (bestPairGreedy g cl).2 = some q ∧ q.1 < q.2 ∧ q.2 < cl.length := by
  unfold bestPairGreedy
  have hfold := greedyOuter_fold g cl hw (List.range cl.length) (-1, none)
    (by intro q h; exact absurd h (by simp))
    (fun _ => rfl)
    _ rfl
  have hex : ∃ i1 ∈ List.range cl.length, i1 + 1 < cl.length :=
    ⟨0, List.mem_range.2 (by omega), by omega⟩
  have hsome := hfold.2.2 (Or.inl hex)
  obtain ⟨q, hq⟩ := Option.isSome_iff_exists.1 hsome
  exact ⟨q, hq, hfold.1 q hq⟩

theorem greedyStep_spec (g : WGraph) (hw : NonnegWeights g) (cl : List (Finset Item))
    (hlen : 2 ≤ cl.length) (hne : ∀ c ∈ cl, c.Nonempty)
    (hpw : List.Pairwise (fun a b => Disjoint a b) cl) :
    ∃ M, greedyStep g cl = some M ∧ (∀ c ∈ M, c.Nonempty) ∧
      List.Pairwise (fun a b => Disjoint a b) M ∧
      unionOf M = unionOf cl ∧ M.length = cl.length - 1 := by
  obtain ⟨q, hbp, h12, h2len⟩ := bestPairGreedy_some g cl hw hlen
  unfold greedyStep
  rw [hbp]
  exact ⟨_, rfl, merge_step cl q.2 q.1 _ h2len (by omega) (by omega) hne hpw rfl⟩

theorem randRounds (g : WGraph) (hw : NonnegWeights g) (num : ℕ) (hnum : 1 ≤ num)
    (pick : ℕ → ℕ) :
    ∀ (l : List ℕ) (cl : List (Finset Item)),
      (∀ c ∈ cl, c.Nonempty) → List.Pairwise (fun a b => Disjoint a b) cl →
      cl.length = num + l.length →
      ∃ M, (l.foldlM (fun c i => randStep g c (pick i)) cl) = some M ∧
        (∀ c ∈ M, c.Nonempty) ∧ List.Pairwise (fun a b => Disjoint a b) M ∧
        unionOf M = unionOf cl ∧ M.length = num := by
  intro l
  induction l with
  | nil =>
    intro cl h1 h2 hlen
    refine ⟨cl, by simp, h1, h2, rfl, ?_⟩
    simpa using hlen
  | cons i t ih =>
    intro cl h1 h2 hlen
    have hlen2 : 2 ≤ cl.length := by
      simp only [List.length_cons] at hlen
      omega
    obtain ⟨M1, hstep, hM1ne, hM1pw, hM1u, hM1len⟩ :=
      randStep_spec g hw cl (pick i) hlen2 h1 h2
    obtain ⟨M, hfold, hMne, hMpw, hMu, hMlen⟩ := ih M1 hM1ne hM1pw
      (by simp only [List.length_cons] at hlen; omega)
    refine ⟨M, ?_, hMne, hMpw, hMu.trans hM1u, hMlen⟩
    rw [List.foldlM_cons, hstep]
    simpa using hfold

theorem greedyRounds (g : WGraph) (hw : NonnegWeights g) (num : ℕ) (hnum : 1 ≤ num) :
    ∀ (l : List ℕ) (cl : List (Finset Item)),
      (∀ c ∈ cl, c.Nonempty) → List.Pairwise (fun a b => Disjoint a b) cl →
      cl.length = num + l.length →
      ∃ M, (l.foldlM (fun c _ => greedyStep g c) cl) = some M ∧
        (∀ c ∈ M, c.Nonempty) ∧ List.Pairwise (fun a b => Disjoint a b) M ∧
        unionOf M = unionOf cl ∧ M.length = num := by
  intro l
  induction l with
  | nil =>
    intro cl h1 h2 hlen
    refine ⟨cl, by simp, h1, h2, rfl, ?_⟩
    simpa using hlen
  | cons i t ih =>
    intro cl h1 h2 hlen
    have hlen2 : 2 ≤ cl.length := by
      simp only [List.length_cons] at hlen
      omega
    obtain ⟨M1, hstep, hM1ne, hM1pw, hM1u, hM1len⟩ :=
      greedyStep_spec g hw cl hlen2 h1 h2
    obtain ⟨M, hfold, hMne, hMpw, hMu, hMlen⟩ := ih M1 hM1ne hM1pw
      (by simp only [List.length_cons] at hlen; omega)
    refine ⟨M, ?_, hMne, hMpw, hMu.trans hM1u, hMlen⟩
    rw [List.foldlM_cons, hstep]
    simpa using hfold

theorem unionOf_map_singleton : ∀ (l : List Item),
    unionOf (l.map (fun b => ({b} : Finset Item))) = l.toFinset := by
  intro l
  induction l with
  | nil => rfl
  | cons a t ih =>
    rw [List.map_cons, unionOf_cons, ih, List.toFinset_cons]
    exact (Finset.insert_eq a _).symm

theorem getAllVerticesW_empty_kind (g : WGraph) : getAllVerticesW g "" = wKeys g := by
  unfold getAllVerticesW
  simp

theorem findClustersRandom_eq (g : WGraph) (num : ℕ) (pick : ℕ → ℕ) :
    findClustersRandom g num pick =
      (List.range ((wKeys g).length - num)).foldlM
        (fun c i => randStep g c (pick i))
        ((wKeys g).map (fun b => ({b} : Finset Item))) := by
  unfold findClustersRandom
  rw [getAllVerticesW_empty_kind]
  dsimp only
  rw [List.length_map]

theorem findClustersGreedy_eq (g : WGraph) (num : ℕ) :
    findClustersGreedy g num =
      (List.range ((wKeys g).length - num)).foldlM
        (fun c _ => greedyStep g c)
        ((wKeys g).map (fun b => ({b} : Finset Item))) := by
  unfold findClustersGreedy
  rw [getAllVerticesW_empty_kind]
  dsimp only
  rw [List.length_map]

/-- C4 counterexample: on a weighted graph of two books joined by an edge
of weight −2 (and num_clusters = 1), every cross-cluster weight is below
the initial `best = -1`, so `best_c2`/`best_c1` stay `None` and both
clustering strategies crash (`AttributeError` on `None.update`) instead
of returning a partition. -/
theorem C4_counterexample :
    findClustersRandom gNeg 1 (fun _ => 0) = none ∧
    findClustersGreedy gNeg 1 = none := by decide

/-- C4 amended: when the stored edge weights are nonnegative (as they are
for the similarity-weighted book graphs the engine is built for), both
strategies succeed for every graph with at least one vertex and every
num_clusters ≥ 1 and every random choice sequence: the result is a list
of non-empty pairwise-disjoint clusters covering exactly the vertex-key
set, of length num_clusters (when ≤ the vertex count) or the vertex
count; when num_clusters ≥ the vertex count zero rounds run and the
singleton partition is returned unchanged. -/
theorem C4_amended (g : WGraph) (num : ℕ) (pick : ℕ → ℕ)
    (hnd : (wKeys g).Nodup) (hw : NonnegWeights g)
    (hne : wKeys g ≠ []) (hnum : 1 ≤ num) :
    (∃ cl, findClustersRandom g num pick = some cl ∧ IsClusterPartition g cl ∧
      cl.length = min num (wKeys g).length) ∧
    (∃ cl, findClustersGreedy g num = some cl ∧ IsClusterPartition g cl ∧
      cl.length = min num (wKeys g).length) ∧
    ((wKeys g).length ≤ num →
      findClustersRandom g num pick
          = some ((wKeys g).map (fun b => ({b} : Finset Item))) ∧
      findClustersGreedy g num
          = some ((wKeys g).map (fun b => ({b} : Finset Item)))) := by
  have h1 : ∀ c ∈ (wKeys g).map (fun b => ({b} : Finset Item)), c.Nonempty := by
    intro c hc
    obtain ⟨b, _, rfl⟩ := List.mem_map.1 hc
    exact Finset.singleton_nonempty b
  have h2 : List.Pairwise (fun a b => Disjoint a b)
      ((wKeys g).map (fun b => ({b} : Finset Item))) := by
    rw [List.pairwise_map]
    exact hnd.imp (fun hne2 => Finset.disjoint_singleton.2 hne2)
  have h3 : unionOf ((wKeys g).map (fun b => ({b} : Finset Item)))
      = (wKeys g).toFinset := unionOf_map_singleton _
  have hlen_init : ((wKeys g).map (fun b => ({b} : Finset Item))).length
      = (wKeys g).length := List.length_map _ _
  have hnpos : 0 < (wKeys g).length := List.length_pos.2 hne
  refine ⟨?_, ?_, ?_⟩
  · rw [findClustersRandom_eq]
    by_cases hcase : num ≤ (wKeys g).length
    · obtain ⟨M, hfold, hMne, hMpw, hMu, hMlen⟩ := randRounds g hw num hnum pick
        (List.range ((wKeys g).length - num)) _ h1 h2
        (by rw [hlen_init, List.length_range]; omega)
      refine ⟨M, hfold, ⟨hMne, hMpw, hMu.trans h3⟩, ?_⟩
      rw [hMlen, Nat.min_eq_left hcase]
    · push_neg at hcase
      rw [Nat.sub_eq_zero_of_le (le_of_lt hcase), List.range_zero]
      refine ⟨_, by simp, ⟨h1, h2, h3⟩, ?_⟩
      rw [hlen_init, Nat.min_eq_right (le_of_lt hcase)]
  · rw [findClustersGreedy_eq]
    by_cases hcase : num ≤ (wKeys g).length
    · obtain ⟨M, hfold, hMne, hMpw, hMu, hMlen⟩ := greedyRounds g hw num hnum
        (List.range ((wKeys g).length - num)) _ h1 h2
        (by rw [hlen_init, List.length_range]; omega)
      refine ⟨M, hfold, ⟨hMne, hMpw, hMu.trans h3⟩, ?_⟩
      rw [hMlen, Nat.min_eq_left hcase]
    · push_neg at hcase
      rw [Nat.sub_eq_zero_of_le (le_of_lt hcase), List.range_zero]
      refine ⟨_, by simp, ⟨h1, h2, h3⟩, ?_⟩
      rw [hlen_init, Nat.min_eq_right (le_of_lt hcase)]
  · intro hle
    rw [findClustersRandom_eq, findClustersGreedy_eq,
      Nat.sub_eq_zero_of_le hle, List.range_zero]
    exact ⟨by simp, by simp⟩

/-- C4 witness: the amended theorem applied to the three-book graph with
positive edge weights, num_clusters = 2 and a constant random choice. -/
theorem C4_witness :
    ((wKeys gPos).Nodup ∧ NonnegWeights gPos ∧ wKeys gPos ≠ [] ∧ 1 ≤ 2) ∧
    ((∃ cl, findClustersRandom gPos 2 (fun _ => 0) = some cl ∧
        IsClusterPartition gPos cl ∧ cl.length = min 2 (wKeys gPos).length) ∧
     (∃ cl, findClustersGreedy gPos 2 = some cl ∧
        IsClusterPartition gPos cl ∧ cl.length = min 2 (wKeys gPos).length) ∧
     ((wKeys gPos).length ≤ 2 →
       findClustersRandom gPos 2 (fun _ => 0)
           = some ((wKeys gPos).map (fun b => ({b} : Finset Item))) ∧
       findClustersGreedy gPos 2
           = some ((wKeys gPos).map (fun b => ({b} : Finset Item))))) :=
  ⟨⟨by decide, by decide, by decide, by decide⟩,
   C4_amended gPos 2 (fun _ => 0) (by decide) (by decide) (by decide) (by decide)⟩

end BookRec
